import Mathlib

/-!
# Verification of the Salk lesson scheduler core (src/scheduler.js)

Shallow embedding of the backtracking scheduling engine:

* Dates are modelled as integer day numbers (the JS code constructs every
  `Date` at local midnight and compares via `toDateString`, millisecond
  subtraction divided by 86400000, and `getDay`; a day-number model captures
  exactly this arithmetic).  Day 0 corresponds to the JS epoch day
  (a Thursday), so `jsGetDay d = (d + 4) % 7` mirrors `Date.prototype.getDay`.
* JS objects used as string-keyed dictionaries are modelled as association
  lists with JS assignment semantics (`jsSet` overwrites in place or appends).
  A stored value of a `period → date` object can be JS `undefined`
  (written into by the backtracker), so inner maps store `Option Int`:
  `none` models a key that is *present* but holds `undefined`, while an
  absent key models a missing property.  Every read site in the source
  (`pa[g]?.[p]`, `lastDate && …`, `… || new Date(0)`) coalesces the two,
  which `paLookup` reproduces.
* JS `Map`/`Set` are modelled as insertion-ordered association lists /
  lists without duplicates; `Array.prototype.sort` (stable per ES2019) is
  modelled by the stable insertion sort `sortLe`.
* Lessons are recorded with their numeric period; the JS code stores the
  presentational label `"Pd " ++ n`, an injective decoration of the number.
-/

/-- JS `Date.prototype.getDay` on a day number (day 0 = Thursday, 1970-01-01). -/
def jsGetDay (d : Int) : Int := (d + 4) % 7

/-- A lesson entry `{period, group}` pushed by `ScheduleEntry.addLesson`. -/
structure Lesson where
  period : Nat
  group : String
deriving DecidableEq, Repr

/-- `ScheduleEntry`: one day of the schedule (`{date, dayCycle, lessons}`). -/
structure ScheduleEntry where
  date : Int
  dayCycle : Int
  lessons : List Lesson
deriving DecidableEq, Repr

/-- One generated `(date, period)` slot, with the running day-cycle counter. -/
structure Slot where
  date : Int
  period : Nat
  dayCycle : Int
deriving DecidableEq, Repr

/-- Lookup in a JS object / Map modelled as an association list. -/
def jsGet {α β : Type} [DecidableEq α] : List (α × β) → α → Option β
  | [], _ => none
  | (k, v) :: rest, k' => if k = k' then some v else jsGet rest k'

/-- JS property assignment / `Map.set`: overwrite in place, else append. -/
def jsSet {α β : Type} [DecidableEq α] : List (α × β) → α → β → List (α × β)
  | [], k, v => [(k, v)]
  | (k', v') :: rest, k, v =>
      if k' = k then (k, v) :: rest else (k', v') :: jsSet rest k v

/-- JS `Set.add`: append if not already a member. -/
def setAdd {α : Type} [DecidableEq α] (l : List α) (x : α) : List α :=
  if x ∈ l then l else l ++ [x]

/-- JS `Set.delete` / removing a key: drop the first occurrence. -/
def eraseFirst {α : Type} [DecidableEq α] : List α → α → List α
  | [], _ => []
  | y :: ys, x => if y = x then ys else y :: eraseFirst ys x

/-- Stable insertion of `x` into `l` (before the first `y` with `le x y`). -/
def insertLe {α : Type} (le : α → α → Bool) (x : α) : List α → List α
  | [] => [x]
  | y :: ys => if le x y then x :: y :: ys else y :: insertLe le x ys

/-- A stable sort; models ES2019's stable `Array.prototype.sort`. -/
def sortLe {α : Type} (le : α → α → Bool) : List α → List α
  | [] => []
  | x :: xs => insertLe le x (sortLe le xs)

/-- `periodAssignments`-shaped data: `group → (period → Date-or-undefined)`. -/
abbrev PeriodMap := List (String × List (Nat × Option Int))

/-- Coalescing read `periodAssignments[group]?.[period]` (missing key and a
key holding `undefined` both read back as `undefined`). -/
def paLookup (pa : PeriodMap) (g : String) (p : Nat) : Option Int :=
  (jsGet ((jsGet pa g).getD []) p).join

/-- The full mutable solver state threaded through `solve`. -/
structure SolveState where
  schedule : List ScheduleEntry
  weeklyAssignments : List (Int × List String)
  periodAssignments : PeriodMap
  muDays : List Int
deriving DecidableEq, Repr

/-- The 25/26 period configuration: odd cycle days run periods 1,4,7,8 and
even cycle days run periods 1,2,3,7,8 (`generateAllSlots`). -/
def periodsForCycle (c : Int) : List Nat :=
  if c % 2 ≠ 0 then [1, 4, 7, 8] else [1, 2, 3, 7, 8]

/-- Loop body of `generateAllSlots`: iterate `remaining` calendar days from
day `d`, skipping weekends and days off without advancing the cycle. -/
def generateAllSlotsGo (daysOff : List Int) : Int → Int → Nat → List Slot
  | _, _, 0 => []
  | d, cyc, r + 1 =>
      if (0 < jsGetDay d ∧ jsGetDay d < 6) ∧ d ∉ daysOff then
        (periodsForCycle cyc).map (fun p => ⟨d, p, cyc⟩)
          ++ generateAllSlotsGo daysOff (d + 1) (cyc + 1) r
      else
        generateAllSlotsGo daysOff (d + 1) cyc r

/-- `ScheduleBuilder.getWeekIdentifier`: the Monday anchoring `d`'s week
(Sunday belongs to the preceding Monday's week). -/
def getWeekIdentifier (d : Int) : Int :=
  let day := jsGetDay d
  if day = 0 then d - 6 else d - day + 1

/-- `ScheduleBuilder._isGroupValidForSlot` (Boolean validity check). -/
def isGroupValidForSlot (st : SolveState) (group : String) (slot : Slot)
    (dayRule : Int) : Bool :=
  if group = "MU" then
    -- 1. Only one MU per day.
    !(st.muDays.contains slot.date)
  else if ((jsGet st.weeklyAssignments (getWeekIdentifier slot.date)).getD
      []).contains group then
    -- 2. Group can't have more than one lesson per week.
    false
  else
    -- 3. Lessons for the same group/period must be `dayRule` days apart.
    match paLookup st.periodAssignments group slot.period with
    | some lastDate => decide (dayRule ≤ slot.date - lastDate)
    | none => true

/-- Comparator of the candidate sort in `solve` as a `≤`-style relation:
`MU` sorts last, groups ascending by last use in this period (epoch default). -/
def candLe (pa : PeriodMap) (period : Nat) (a b : String) : Bool :=
  if a = "MU" then false
  else if b = "MU" then true
  else decide (((paLookup pa a period).getD 0) ≤ ((paLookup pa b period).getD 0))

/-- Update the first schedule entry carrying date `d` (the JS code mutates
the object found by `schedule.find`). -/
def updateFirstEntry : List ScheduleEntry → Int →
    (ScheduleEntry → ScheduleEntry) → List ScheduleEntry
  | [], _, _ => []
  | e :: rest, d, f =>
      if e.date = d then f e :: rest else e :: updateFirstEntry rest d f

/-- Comparator of `schedule.sort((a, b) => a.date - b.date)`. -/
def entryLe (a b : ScheduleEntry) : Bool := decide (a.date ≤ b.date)

/-- The per-trial undo data the JS closure keeps (`addedToWeek`,
`previousDate`).  `previousDate`: `none` is JS `null`, `some none` is JS
`undefined`, `some (some d)` is a `Date`. -/
structure UndoInfo where
  addedToWeek : Bool
  previousDate : Option (Option Int)
deriving DecidableEq, Repr

/-- Schedule part of the "Apply Changes" block: find or lazily create the
day's `ScheduleEntry` (push + re-sort), then push the lesson onto it. -/
def applyToSchedule (sch : List ScheduleEntry) (slot : Slot) (group : String) :
    List ScheduleEntry :=
  let schedule1 :=
    match sch.find? (fun e => decide (e.date = slot.date)) with
    | some _ => sch
    | none =>
        sortLe entryLe
          (sch ++ [⟨slot.date, if slot.dayCycle % 2 = 0 then 2 else 1, []⟩])
  updateFirstEntry schedule1 slot.date
    (fun e => { e with lessons := e.lessons ++ [⟨slot.period, group⟩] })

/-- Second half of the backtrack block: `schedule.pop()` when the day entry
found for the slot's date has been emptied. -/
def popEmptied (sch : List ScheduleEntry) (slot : Slot) : List ScheduleEntry :=
  match sch.find? (fun e => decide (e.date = slot.date)) with
  | some e => if e.lessons.isEmpty then sch.dropLast else sch
  | none => sch

/-- Schedule part of the "Backtrack" block: pop the day's last lesson and
drop the day entry if it became empty. -/
def undoSchedule (sch : List ScheduleEntry) (slot : Slot) :
    List ScheduleEntry :=
  popEmptied
    (updateFirstEntry sch slot.date
      (fun e => { e with lessons := e.lessons.dropLast })) slot

/-- Period-memory part of the apply block: ensure the group's inner object,
read the raw previous value, store the slot's date.  Returns the new map and
the JS value of `previousDate` (`none` = `undefined`). -/
def applyToPA (pa : PeriodMap) (g : String) (p : Nat) (d : Int) :
    PeriodMap × Option Int :=
  let pa0 := if (jsGet pa g).isNone then jsSet pa g [] else pa
  let inner := (jsGet pa0 g).getD []
  -- JS: `previousDate = periodAssignments[group][period]` — a raw property
  -- read yielding either a Date or `undefined`, never `null`.
  let prev : Option Int := (jsGet inner p).join
  (jsSet pa0 g (jsSet inner p (some d)), prev)

/-- "Apply Changes" block of `solve` (lines 213–240 of scheduler.js). -/
def applyAssign (st : SolveState) (slot : Slot) (group : String) :
    SolveState × UndoInfo :=
  let schedule2 := applyToSchedule st.schedule slot group
  if group = "MU" then
    ({ st with schedule := schedule2, muDays := setAdd st.muDays slot.date },
     ⟨false, none⟩)
  else
    let wId := getWeekIdentifier slot.date
    let groupsThisWeek := (jsGet st.weeklyAssignments wId).getD []
    let added := !(groupsThisWeek.contains group)
    let weekly1 := if added then
        jsSet st.weeklyAssignments wId (groupsThisWeek ++ [group])
      else st.weeklyAssignments
    let par := applyToPA st.periodAssignments group slot.period slot.date
    ({ st with schedule := schedule2, weeklyAssignments := weekly1,
               periodAssignments := par.1 },
     ⟨added, some par.2⟩)

/-- `delete obj[k]` on an inner period object. -/
def jsMapDel : List (Nat × Option Int) → Nat → List (Nat × Option Int)
  | [], _ => []
  | (k, v) :: rest, k' => if k = k' then rest else (k, v) :: jsMapDel rest k'

/-- Period-memory part of the backtrack block:
`previousDate !== null ? (pa[g][p] = previousDate) : delete pa[g][p]`. -/
def undoPA (pa : PeriodMap) (g : String) (p : Nat)
    (previousDate : Option (Option Int)) : PeriodMap :=
  let inner := (jsGet pa g).getD []
  match previousDate with
  | some prev => jsSet pa g (jsSet inner p prev)
  | none => -- `delete periodAssignments[group][period]` (unreachable for
            -- non-MU groups: `previousDate` is never `null` there).
      jsSet pa g (jsMapDel inner p)

/-- "Backtrack" block of `solve` (lines 256–268 of scheduler.js). -/
def undoAssign (st : SolveState) (slot : Slot) (group : String)
    (info : UndoInfo) : SolveState :=
  let schedule2 := undoSchedule st.schedule slot
  if group = "MU" then
    { st with schedule := schedule2, muDays := eraseFirst st.muDays slot.date }
  else
    let wId := getWeekIdentifier slot.date
    let weekly1 := if info.addedToWeek then
        jsSet st.weeklyAssignments wId
          (eraseFirst ((jsGet st.weeklyAssignments wId).getD []) group)
      else st.weeklyAssignments
    { st with schedule := schedule2, weeklyAssignments := weekly1,
              periodAssignments :=
                undoPA st.periodAssignments group slot.period
                  info.previousDate }

/-- `weeklyAssignments.set(weekId, new Set())` when the key is missing
(start of each `solve` call). -/
def ensureWeek (st : SolveState) (wId : Int) : SolveState :=
  if (jsGet st.weeklyAssignments wId).isNone then
    { st with weeklyAssignments := jsSet st.weeklyAssignments wId [] }
  else st

/-- Candidate loop of `solve`: try each candidate in order; on a failed
recursive call, undo the trial and continue. -/
def tryCandidates (recur : SolveState → Bool × SolveState) (slot : Slot)
    (dayRule : Int) : List String → SolveState → Bool × SolveState
  | [], st => (false, st)
  | g :: rest, st =>
      if isGroupValidForSlot st g slot dayRule then
        let a := applyAssign st slot g
        let r := recur a.1
        if r.1 then r
        else tryCandidates recur slot dayRule rest (undoAssign r.2 slot g a.2)
      else tryCandidates recur slot dayRule rest st

/-- `ScheduleBuilder.solve`, consuming the slot list left to right.  The
Boolean mirrors the JS return value; the state is the JS mutable state at
return time (restored by the undos on failure). -/
def solve (G : List String) (dayRule : Int) : List Slot → SolveState →
    Bool × SolveState
  | [], st => (true, st)
  | slot :: rest, st =>
      let st1 := ensureWeek st (getWeekIdentifier slot.date)
      let cands := sortLe (candLe st1.periodAssignments slot.period)
        (G ++ ["MU"])
      tryCandidates (fun s => solve G dayRule rest s) slot dayRule cands st1

/-- One record of the `scheduleHistory` input, already parsed: `none` models
a missing/falsy field (JS skips such records). -/
structure HistoryLesson where
  date : Option Int
  period : Option Nat
  group : Option String
deriving DecidableEq, Repr

/-- JS truthiness of the raw history fields guarding
`_populateAssignmentsFromHistory` (empty string and 0 are falsy). -/
def historyLessonUsable (l : HistoryLesson) : Bool :=
  match l.group, l.period, l.date with
  | some g, some p, some _ => decide (¬(g = "" ∨ p = 0 ∨ g = "MU"))
  | _, _, _ => false

/-- `ScheduleBuilder._populateAssignmentsFromHistory`: keep the latest date
per known group/period (strictly later dates overwrite). -/
def populateAssignmentsFromHistory (pa : PeriodMap)
    (history : List HistoryLesson) : PeriodMap :=
  history.foldl (fun pa l =>
    if historyLessonUsable l then
      match l.group, l.period, l.date with
      | some g, some p, some d =>
          match jsGet pa g with
          | some inner =>
              match (jsGet inner p).join with
              | none => jsSet pa g (jsSet inner p (some d))
              | some e => if e < d then jsSet pa g (jsSet inner p (some d)) else pa
          | none => pa
      | _, _, _ => pa
    else pa) pa

/-- Keep the first occurrence of each element (JS `Set` insertion order). -/
def dedupFirst : List String → List String
  | [] => []
  | x :: xs => x :: (dedupFirst xs).filter (· ≠ x)

def REQUIRED_UNIQUE_GROUPS : Nat := 22

/-- The fallback roster `A` … `V` (`String.fromCharCode(65 + i)`). -/
def defaultGroups : List String :=
  (List.range REQUIRED_UNIQUE_GROUPS).map (fun i => String.mk [Char.ofNat (65 + i)])

/-- The distinct truthy non-MU group names of a history, in first-seen order
(`new Set(history.map(i => i.group).filter(Boolean))` minus `"MU"`). -/
def historyGroups (h : List HistoryLesson) : List String :=
  eraseFirst (dedupFirst (h.filterMap (fun l =>
    match l.group with
    | some g => if g = "" then none else some g
    | none => none))) "MU"

/-- The immutable fields set up by the `ScheduleBuilder` constructor. -/
structure ScheduleBuilder where
  startDate : Int
  dayCycle : Int
  daysOff : List Int
  weeks : Nat
  LESSON_GROUPS : List String
  initialPeriodAssignments : PeriodMap
deriving DecidableEq, Repr

/-- The `ScheduleBuilder` constructor (date strings already parsed into day
numbers; blank `daysOff` entries already filtered). -/
def mkScheduleBuilder (startDate : Int) (dayCycle : Int) (daysOff : List Int)
    (weeks : Nat) (scheduleHistory : Option (List HistoryLesson)) :
    ScheduleBuilder :=
  let groups :=
    match scheduleHistory with
    | some h =>
        if h ≠ [] then
          let fromHistory := historyGroups h
          if fromHistory.length = REQUIRED_UNIQUE_GROUPS then fromHistory
          else defaultGroups
        else defaultGroups
    | none => defaultGroups
  let pa0 : PeriodMap := groups.foldl (fun pa g => jsSet pa g []) []
  let pa :=
    match scheduleHistory with
    | some h => populateAssignmentsFromHistory pa0 h
    | none => pa0
  ⟨startDate, dayCycle, daysOff, weeks, groups, pa⟩

/-- `ScheduleBuilder.generateAllSlots`. -/
def generateAllSlots (b : ScheduleBuilder) : List Slot :=
  generateAllSlotsGo b.daysOff b.startDate b.dayCycle (b.weeks * 7)

/-- The mutable state `buildSchedule` seeds each solver pass with (the JSON
round trip of `initialPeriodAssignments` is value-preserving). -/
def seedState (b : ScheduleBuilder) : SolveState :=
  ⟨[], [], b.initialPeriodAssignments, []⟩

def PERFECT_SCHEDULE_DAY_RULE : Int := 28
def HIGH_QUALITY_DAY_RULE : Int := 21

/-- `ScheduleBuilder.buildSchedule`: 28-day pass, then a 21-day pass from a
fresh seed, else the empty schedule. -/
def buildSchedule (b : ScheduleBuilder) : List ScheduleEntry :=
  let slots := generateAllSlots b
  if slots.isEmpty then []
  else
    match solve b.LESSON_GROUPS PERFECT_SCHEDULE_DAY_RULE slots (seedState b) with
    | (true, st) => st.schedule
    | (false, _) =>
        match solve b.LESSON_GROUPS HIGH_QUALITY_DAY_RULE slots (seedState b) with
        | (true, st) => st.schedule
        | (false, _) => []

/-! ## Calendar slot generator: characterization and ordering -/

/-- A retained calendar day: a weekday that is not excluded. -/
def isSchoolDay (off : List Int) (d : Int) : Prop :=
  (0 < jsGetDay d ∧ jsGetDay d < 6) ∧ d ∉ off

instance (off : List Int) (d : Int) : Decidable (isSchoolDay off d) := by
  unfold isSchoolDay; infer_instance

/-- The retained days of the `n`-day window starting at `d`, in order. -/
def daysWindow (off : List Int) (d : Int) (n : Nat) : List Int :=
  ((List.range n).map (fun k : Nat => d + (k : Int))).filter
    (fun d' => decide (isSchoolDay off d'))

/-- Spec-side slot emission: one slot per period of the current parity for
each retained day, advancing the parity by one per retained day only. -/
def slotsFromDays (c : Int) : List Int → List Slot
  | [] => []
  | d :: ds =>
      (periodsForCycle c).map (fun p => ⟨d, p, c⟩) ++ slotsFromDays (c + 1) ds

/-- The generator, described the way the spec states it. -/
def generateAllSlotsSpec (b : ScheduleBuilder) : List Slot :=
  slotsFromDays b.dayCycle (daysWindow b.daysOff b.startDate (b.weeks * 7))

/-- Strict ascending `(date, period)` order on slots. -/
def slotLt (s1 s2 : Slot) : Prop :=
  s1.date < s2.date ∨ (s1.date = s2.date ∧ s1.period < s2.period)

/-- The `(date, period)` projections of the slots. -/
def slotPlaces (slots : List Slot) : List (Int × Nat) :=
  slots.map (fun s => (s.date, s.period))

/-- The group set recorded for week `w` (empty when the key is missing). -/
def weekSet (st : SolveState) (w : Int) : List String :=
  (jsGet st.weeklyAssignments w).getD []

/-- All `(date, period)` pairs carried by the schedule's lessons. -/
def places (sch : List ScheduleEntry) : List (Int × Nat) :=
  sch.flatMap (fun e => e.lessons.map (fun l => (e.date, l.period)))

/-- All `(week identifier, group)` pairs carried by the schedule's lessons. -/
def weekGroupPairs (sch : List ScheduleEntry) : List (Int × String) :=
  sch.flatMap (fun e => e.lessons.map (fun l => (getWeekIdentifier e.date, l.group)))

/-- All `(date, group)` pairs carried by the schedule's lessons. -/
def dateGroupPairs (sch : List ScheduleEntry) : List (Int × String) :=
  sch.flatMap (fun e => e.lessons.map (fun l => (e.date, l.group)))

/-- The dates at which group `g` is assigned to period `p`, in schedule
order. -/
def assignmentDates (sch : List ScheduleEntry) (g : String) (p : Nat) :
    List Int :=
  sch.flatMap (fun e => e.lessons.filterMap (fun l =>
    if l.group = g ∧ l.period = p then some e.date else none))

/-- Every lesson's group is on the roster or the make-up sentinel. -/
def GroupsOk (G : List String) (sch : List ScheduleEntry) : Prop :=
  ∀ e ∈ sch, ∀ l ∈ e.lessons, l.group ∈ G ∨ l.group = "MU"

/-- Observational equality of solver states: identical schedule, MU days and
weekly sets / period memory up to the residue the JS code can never read
(leaked empty week keys, period keys holding `undefined`). -/
def StEq (st st' : SolveState) : Prop :=
  st'.schedule = st.schedule ∧
  st'.muDays = st.muDays ∧
  (∀ w, jsGet st'.weeklyAssignments w = jsGet st.weeklyAssignments w ∨
    (jsGet st.weeklyAssignments w = none ∧
     jsGet st'.weeklyAssignments w = some [])) ∧
  (∀ g p, paLookup st'.periodAssignments g p =
    paLookup st.periodAssignments g p) ∧
  (∀ g, (jsGet st.periodAssignments g).isSome →
    (jsGet st'.periodAssignments g).isSome)

/-- The full scheduling invariant maintained over the search state. -/
structure SchedInv (seed : PeriodMap) (rule : Int) (st : SolveState) : Prop where
  weekly : ∀ w g, g ≠ "MU" →
    (weekGroupPairs st.schedule).count (w, g) ≤
      (if g ∈ weekSet st w then 1 else 0)
  mu : ∀ d, (dateGroupPairs st.schedule).count (d, "MU") ≤
    (if d ∈ st.muDays then 1 else 0)
  paMax : ∀ g p, g ≠ "MU" → ∀ d ∈ assignmentDates st.schedule g p,
    ∃ m, paLookup st.periodAssignments g p = some m ∧ d ≤ m
  gaps : ∀ g p, g ≠ "MU" →
    (assignmentDates st.schedule g p).Pairwise (fun d1 d2 => rule ≤ d2 - d1)
  seedGap : ∀ g p, g ≠ "MU" → ∀ d ∈ assignmentDates st.schedule g p,
    ∀ s, paLookup seed g p = some s → rule ≤ d - s
  paSeed : ∀ g p s, paLookup seed g p = some s →
    ∃ m, paLookup st.periodAssignments g p = some m ∧ s ≤ m

/-- Structural facts about reachable states relative to the pending slots. -/
structure StructInv (st : SolveState) (slots : List Slot) : Prop where
  sorted : st.schedule.Pairwise (fun e1 e2 => e1.date < e2.date)
  nonNil : ∀ e ∈ st.schedule, e.lessons ≠ []
  ahead : ∀ e ∈ st.schedule, ∀ s ∈ slots, e.date ≤ s.date
  slotsSorted : slots.Pairwise (fun s1 s2 : Slot => s1.date ≤ s2.date)

/-- What a successful solver run over `slots` guarantees, relative to its
entry state. -/
def Conc (G : List String) (rule : Int) (slots : List Slot)
    (st st' : SolveState) : Prop :=
  (∀ pr : Int × Nat, (places st'.schedule).count pr =
    (places st.schedule).count pr + (slotPlaces slots).count pr) ∧
  (GroupsOk G st.schedule → GroupsOk G st'.schedule) ∧
  (∀ e ∈ st'.schedule, e.date ∈ st.schedule.map ScheduleEntry.date ∨
    e.date ∈ slots.map Slot.date) ∧
  (∀ seed, 0 ≤ rule → SchedInv seed rule st → SchedInv seed rule st')

/-- The spacing threshold of the pass whose result `buildSchedule` returns:
28 when the strict pass succeeds, otherwise 21. -/
def activeDayRule (b : ScheduleBuilder) : Int :=
  if (solve b.LESSON_GROUPS PERFECT_SCHEDULE_DAY_RULE (generateAllSlots b)
      (seedState b)).1 then PERFECT_SCHEDULE_DAY_RULE
  else HIGH_QUALITY_DAY_RULE

/-- Concrete builder used by several witnesses: start Monday (day 4),
cycle 1, one week, with Tuesday–Friday excluded, so exactly the four
odd-cycle Monday slots exist. -/
def wb : ScheduleBuilder := mkScheduleBuilder 4 1 [5, 6, 7, 8] 1 none

/-- Failing input for C5: the state right after `ensureWeek` for a slot on
day 0 (week key −3 present), with group `A` on the roster but no prior date
for period 1. -/
def c5State : SolveState := ⟨[], [(-3, [])], [("A", [])], []⟩

def c5Slot : Slot := ⟨0, 1, 1⟩

/-- History with a single distinct non-MU group, used against C9. -/
def historyX : List HistoryLesson := [⟨some 0, some 1, some "X"⟩]

theorem daysWindow_zero (off : List Int) (d : Int) : daysWindow off d 0 = [] := rfl

theorem daysWindow_succ (off : List Int) (d : Int) (n : Nat) :
    daysWindow off d (n + 1) =
      (if isSchoolDay off d then [d] else []) ++ daysWindow off (d + 1) n := by
  unfold daysWindow
  rw [List.range_succ_eq_map, List.map_cons, List.map_map, List.filter_cons]
  have h1 : (fun k : Nat => d + (k : Int)) ∘ Nat.succ = fun k : Nat => (d + 1) + (k : Int) := by
    funext k
    simp only [Function.comp_apply, Nat.succ_eq_add_one]
    push_cast
    ring
  rw [h1]
  by_cases h : isSchoolDay off d <;> simp [h]

theorem generateAllSlotsGo_eq (off : List Int) :
    ∀ (n : Nat) (d c : Int),
      generateAllSlotsGo off d c n = slotsFromDays c (daysWindow off d n) := by
  intro n
  induction n with
  | zero => intro d c; rfl
  | succ n ih =>
      intro d c
      rw [daysWindow_succ]
      by_cases h : isSchoolDay off d
      · have hcond : (0 < jsGetDay d ∧ jsGetDay d < 6) ∧ d ∉ off := h
        simp only [generateAllSlotsGo, if_pos hcond, h, if_true,
          List.singleton_append, slotsFromDays, ih]
      · have hcond : ¬((0 < jsGetDay d ∧ jsGetDay d < 6) ∧ d ∉ off) := h
        simp only [generateAllSlotsGo, if_neg hcond, h, if_false,
          List.nil_append, ih]

/-- (C7 part) `generateAllSlots` equals its spec-side description. -/
theorem generateAllSlots_eq_spec (b : ScheduleBuilder) :
    generateAllSlots b = generateAllSlotsSpec b :=
  generateAllSlotsGo_eq b.daysOff (b.weeks * 7) b.startDate b.dayCycle

theorem mem_daysWindow {off : List Int} {d : Int} {n : Nat} {x : Int} :
    x ∈ daysWindow off d n ↔
      (d ≤ x ∧ x < d + n ∧ isSchoolDay off x) := by
  unfold daysWindow
  simp only [List.mem_filter, List.mem_map, List.mem_range, decide_eq_true_eq]
  constructor
  · rintro ⟨⟨k, hk, rfl⟩, hs⟩
    refine ⟨by omega, by omega, hs⟩
  · rintro ⟨h1, h2, hs⟩
    exact ⟨⟨(x - d).toNat, by omega, by omega⟩, hs⟩

theorem pairwise_lt_daysWindow (off : List Int) (d : Int) (n : Nat) :
    List.Pairwise (· < ·) (daysWindow off d n) := by
  unfold daysWindow
  apply List.Pairwise.filter
  rw [List.pairwise_map]
  have := List.pairwise_lt_range n
  exact this.imp (by intro a b h; omega)

theorem mem_slotsFromDays_date {c : Int} {ds : List Int} {s : Slot} :
    s ∈ slotsFromDays c ds → s.date ∈ ds := by
  induction ds generalizing c with
  | nil => intro h; simp [slotsFromDays] at h
  | cons d ds ih =>
      intro h
      simp only [slotsFromDays, List.mem_append, List.mem_map] at h
      rcases h with ⟨p, _, rfl⟩ | h
      · simp
      · exact List.mem_cons_of_mem _ (ih h)

theorem periodsForCycle_pairwise (c : Int) :
    List.Pairwise (· < ·) (periodsForCycle c) := by
  unfold periodsForCycle
  split <;> decide

theorem pairwise_slotLt_slotsFromDays {c : Int} {ds : List Int}
    (hds : List.Pairwise (· < ·) ds) :
    List.Pairwise slotLt (slotsFromDays c ds) := by
  induction ds generalizing c with
  | nil => exact List.Pairwise.nil
  | cons d ds ih =>
      rcases List.pairwise_cons.mp hds with ⟨hd, hds'⟩
      simp only [slotsFromDays]
      rw [List.pairwise_append]
      refine ⟨?_, ih hds', ?_⟩
      · rw [List.pairwise_map]
        exact (periodsForCycle_pairwise c).imp (by
          intro a b h; exact Or.inr ⟨rfl, h⟩)
      · intro a ha b hb
        rcases List.mem_map.mp ha with ⟨p, _, rfl⟩
        have hbd : b.date ∈ ds := mem_slotsFromDays_date hb
        exact Or.inl (hd _ hbd)

/-- Slots come out in strictly ascending `(date, period)` order. -/
theorem generateAllSlots_pairwise (b : ScheduleBuilder) :
    List.Pairwise slotLt (generateAllSlots b) := by
  rw [generateAllSlots_eq_spec]
  exact pairwise_slotLt_slotsFromDays
    (pairwise_lt_daysWindow b.daysOff b.startDate (b.weeks * 7))

/-- Dates are weakly ascending along the slot list. -/
theorem generateAllSlots_dateSorted (b : ScheduleBuilder) :
    List.Pairwise (fun s1 s2 : Slot => s1.date ≤ s2.date) (generateAllSlots b) :=
  (generateAllSlots_pairwise b).imp (by
    intro a b h
    rcases h with h | ⟨h, _⟩
    · omega
    · omega)

/-- Every generated slot sits on a retained school day inside the window. -/
theorem generateAllSlots_mem_school (b : ScheduleBuilder) :
    ∀ s ∈ generateAllSlots b,
      b.startDate ≤ s.date ∧ s.date < b.startDate + (b.weeks * 7 : Nat) ∧
      isSchoolDay b.daysOff s.date := by
  intro s hs
  rw [generateAllSlots_eq_spec] at hs
  have := mem_slotsFromDays_date hs
  exact mem_daysWindow.mp this

theorem periodsForCycle_eq_cons (c : Int) : ∃ t, periodsForCycle c = 1 :: t := by
  unfold periodsForCycle
  split
  · exact ⟨[4, 7, 8], rfl⟩
  · exact ⟨[2, 3, 7, 8], rfl⟩

theorem daysWindow_saturday (off : List Int) (start : Int)
    (h6 : jsGetDay start = 6) (hm : start + 2 ∉ off) (m : Nat) :
    daysWindow off start (m + 3) = (start + 2) :: daysWindow off (start + 3) m := by
  have e1 : ¬ isSchoolDay off start := by
    rintro ⟨⟨_, h2⟩, _⟩
    rw [h6] at h2
    omega
  have e2 : ¬ isSchoolDay off (start + 1) := by
    rintro ⟨⟨h1, _⟩, _⟩
    unfold jsGetDay at h1 h6
    omega
  have e3 : isSchoolDay off (start + 1 + 1) := by
    have : jsGetDay (start + 1 + 1) = 1 := by unfold jsGetDay at *; omega
    exact ⟨by rw [this]; omega, by rw [show start + 1 + 1 = start + 2 by ring]; exact hm⟩
  have hsplit : m + 3 = (m + 2) + 1 := rfl
  rw [hsplit, daysWindow_succ, if_neg e1, List.nil_append,
    show m + 2 = (m + 1) + 1 from rfl, daysWindow_succ, if_neg e2,
    List.nil_append, daysWindow_succ, if_pos e3, List.singleton_append,
    show start + 1 + 1 = start + 2 by ring, show start + 2 + 1 = start + 3 by ring]

/-- A Saturday start advances to the following Monday before emitting. -/
theorem generateAllSlots_saturday (b : ScheduleBuilder)
    (h6 : jsGetDay b.startDate = 6) (hw : 1 ≤ b.weeks)
    (hm : b.startDate + 2 ∉ b.daysOff) :
    (generateAllSlots b).head?.map Slot.date = some (b.startDate + 2) := by
  obtain ⟨m, hm7⟩ : ∃ m, b.weeks * 7 = m + 3 := ⟨b.weeks * 7 - 3, by omega⟩
  rw [generateAllSlots_eq_spec]
  unfold generateAllSlotsSpec
  rw [hm7, daysWindow_saturday _ _ h6 hm m]
  obtain ⟨t, ht⟩ := periodsForCycle_eq_cons b.dayCycle
  simp [slotsFromDays, ht]

theorem slotPlaces_nodup (b : ScheduleBuilder) :
    (slotPlaces (generateAllSlots b)).Nodup := by
  apply List.Pairwise.map _ _ (generateAllSlots_pairwise b)
  intro a b hab hEq
  rw [Prod.ext_iff] at hEq
  rcases hab with h | ⟨h1, h2⟩
  · exact absurd hEq.1 (by omega)
  · exact absurd hEq.2 (by simpa using Nat.ne_of_lt h2)

/-! ## Container lemmas -/

theorem jsGet_jsSet_self {α β : Type} [DecidableEq α] (m : List (α × β))
    (k : α) (v : β) : jsGet (jsSet m k v) k = some v := by
  induction m with
  | nil => simp [jsGet, jsSet]
  | cons kv rest ih =>
      obtain ⟨k', v'⟩ := kv
      by_cases h : k' = k
      · subst h; simp [jsGet, jsSet]
      · simp [jsGet, jsSet, h, ih]

theorem jsGet_jsSet_ne {α β : Type} [DecidableEq α] (m : List (α × β))
    {k k' : α} (v : β) (h : k' ≠ k) :
    jsGet (jsSet m k v) k' = jsGet m k' := by
  induction m with
  | nil => simp [jsGet, jsSet, Ne.symm h]
  | cons kv rest ih =>
      obtain ⟨k0, v0⟩ := kv
      by_cases h0 : k0 = k
      · subst h0
        simp [jsGet, jsSet, Ne.symm h]
      · simp [jsGet, jsSet, h0, ih]

theorem jsGet_jsSet_isSome {α β : Type} [DecidableEq α] (m : List (α × β))
    {g k : α} (v : β) (h : (jsGet m g).isSome) :
    (jsGet (jsSet m k v) g).isSome := by
  by_cases hk : g = k
  · subst hk; rw [jsGet_jsSet_self]; rfl
  · rw [jsGet_jsSet_ne m v hk]; exact h

theorem eraseFirst_append_not_mem {α : Type} [DecidableEq α] {l : List α}
    {x : α} (h : x ∉ l) : eraseFirst (l ++ [x]) x = l := by
  induction l with
  | nil => simp [eraseFirst]
  | cons y ys ih =>
      have hy : y ≠ x := by rintro rfl; exact h (List.mem_cons_self _ _)
      have h' : x ∉ ys := fun hm => h (List.mem_cons_of_mem _ hm)
      simp [eraseFirst, hy, ih h']

theorem insertLe_of_head {α : Type} (le : α → α → Bool) (x y : α)
    (ys : List α) (h : le x y = true) :
    insertLe le x (y :: ys) = x :: y :: ys := by
  simp [insertLe, h]

theorem sortLe_of_pairwise {α : Type} (le : α → α → Bool) :
    ∀ {l : List α}, l.Pairwise (fun a b => le a b = true) → sortLe le l = l := by
  intro l
  induction l with
  | nil => intro _; rfl
  | cons a l ih =>
      intro h
      rcases List.pairwise_cons.mp h with ⟨ha, hl⟩
      rw [sortLe, ih hl]
      cases l with
      | nil => rfl
      | cons b bs => exact insertLe_of_head le a b bs (ha b (List.mem_cons_self _ _))

theorem mem_insertLe {α : Type} (le : α → α → Bool) (x y : α) :
    ∀ (l : List α), y ∈ insertLe le x l ↔ y = x ∨ y ∈ l := by
  intro l
  induction l with
  | nil => simp [insertLe]
  | cons a l ih =>
      by_cases h : le x a
      · simp [insertLe, h]
      · simp only [insertLe, if_neg h, List.mem_cons, ih]
        tauto

theorem mem_sortLe {α : Type} (le : α → α → Bool) (y : α) :
    ∀ (l : List α), y ∈ sortLe le l ↔ y ∈ l := by
  intro l
  induction l with
  | nil => simp [sortLe]
  | cons a l ih => simp [sortLe, mem_insertLe, ih]

theorem updateFirstEntry_append_no_match {l1 l2 : List ScheduleEntry}
    {d : Int} (f : ScheduleEntry → ScheduleEntry)
    (h : ∀ e ∈ l1, e.date ≠ d) :
    updateFirstEntry (l1 ++ l2) d f = l1 ++ updateFirstEntry l2 d f := by
  induction l1 with
  | nil => simp
  | cons e l1 ih =>
      have he : e.date ≠ d := h e (List.mem_cons_self _ _)
      simp only [List.cons_append, updateFirstEntry, if_neg he, List.append_eq]
      rw [ih (fun e' he' => h e' (List.mem_cons_of_mem _ he'))]

theorem updateFirstEntry_cons_match {e : ScheduleEntry}
    {rest : List ScheduleEntry} {d : Int} (f : ScheduleEntry → ScheduleEntry)
    (h : e.date = d) : updateFirstEntry (e :: rest) d f = f e :: rest := by
  simp [updateFirstEntry, h]

/-- A member that is an upper bound of a strictly sorted list is its last
element. -/
theorem last_of_strict_sorted {l : List ScheduleEntry} {e : ScheduleEntry}
    (hs : l.Pairwise (fun e1 e2 => e1.date < e2.date)) (hm : e ∈ l)
    (hb : ∀ x ∈ l, x.date ≤ e.date) :
    ∃ pre, l = pre ++ [e] ∧ ∀ x ∈ pre, x.date < e.date := by
  induction l with
  | nil => cases hm
  | cons a l ih =>
      rcases List.pairwise_cons.mp hs with ⟨ha, hl⟩
      rcases List.mem_cons.mp hm with rfl | hm'
      · cases l with
        | nil => exact ⟨[], rfl, by simp⟩
        | cons b bs =>
            exfalso
            have h1 := ha b (List.mem_cons_self _ _)
            have h2 := hb b (List.mem_cons_of_mem _ (List.mem_cons_self _ _))
            omega
      · obtain ⟨pre, hpre, hlt⟩ := ih hl hm'
          (fun x hx => hb x (List.mem_cons_of_mem _ hx))
        refine ⟨a :: pre, by rw [List.cons_append, hpre], ?_⟩
        intro x hx
        rcases List.mem_cons.mp hx with rfl | hx'
        · exact ha e hm'
        · exact hlt x hx'

theorem find?_append_last {base : List ScheduleEntry} {e : ScheduleEntry}
    {p : ScheduleEntry → Bool} (hnm : ∀ x ∈ base, ¬ p x) (hp : p e) :
    (base ++ [e]).find? p = some e := by
  induction base with
  | nil => simp [List.find?, hp]
  | cons a l ih =>
      have ha : ¬ p a := hnm a (List.mem_cons_self _ _)
      rw [List.cons_append, List.find?_cons_of_neg _ ha]
      exact ih (fun x hx => hnm x (List.mem_cons_of_mem _ hx))

/-- Effect of the apply block on the schedule, under the reachable-state
shape assumptions (strictly date-sorted, all entries at or before the slot
date). -/
theorem applyToSchedule_cases (sch : List ScheduleEntry) (slot : Slot)
    (g : String)
    (hs : sch.Pairwise (fun e1 e2 => e1.date < e2.date))
    (hb : ∀ e ∈ sch, e.date ≤ slot.date) :
    (∃ pre e, sch = pre ++ [e] ∧ e.date = slot.date ∧
      (∀ x ∈ pre, x.date < slot.date) ∧
      applyToSchedule sch slot g =
        pre ++ [{ e with lessons := e.lessons ++ [⟨slot.period, g⟩] }])
    ∨ ((∀ e ∈ sch, e.date ≠ slot.date) ∧
      applyToSchedule sch slot g =
        sch ++ [⟨slot.date, if slot.dayCycle % 2 = 0 then 2 else 1,
          [⟨slot.period, g⟩]⟩]) := by
  rcases hf : sch.find? (fun e => decide (e.date = slot.date)) with _ | e0
  · right
    have hnm : ∀ e ∈ sch, e.date ≠ slot.date := by
      intro e he
      have := List.find?_eq_none.mp hf e he
      simpa using this
    refine ⟨hnm, ?_⟩
    unfold applyToSchedule
    rw [hf]
    have hpw : (sch ++ [(⟨slot.date, if slot.dayCycle % 2 = 0 then 2 else 1,
        []⟩ : ScheduleEntry)]).Pairwise (fun a b => entryLe a b = true) := by
      rw [List.pairwise_append]
      refine ⟨hs.imp (by intro a b h; simp [entryLe]; omega), by simp, ?_⟩
      intro a ha b hb'
      simp only [List.mem_singleton] at hb'
      subst hb'
      simp [entryLe, hb a ha]
    rw [sortLe_of_pairwise entryLe hpw,
      updateFirstEntry_append_no_match _ hnm,
      updateFirstEntry_cons_match _ rfl]
    simp
  · left
    have he0 : e0.date = slot.date := by
      have := List.find?_some hf
      simpa using this
    have hm : e0 ∈ sch := List.mem_of_find?_eq_some hf
    obtain ⟨pre, hpre, hlt⟩ := last_of_strict_sorted hs hm
      (fun x hx => he0 ▸ hb x hx)
    refine ⟨pre, e0, hpre, he0, (fun x hx => he0 ▸ hlt x hx), ?_⟩
    unfold applyToSchedule
    rw [hf, hpre,
      updateFirstEntry_append_no_match _
        (fun x hx => ne_of_lt (he0 ▸ hlt x hx)),
      updateFirstEntry_cons_match _ he0]

/-- Effect of the backtrack block on a schedule ending in the slot's entry. -/
theorem undoSchedule_append_last {base : List ScheduleEntry}
    {e : ScheduleEntry} {slot : Slot}
    (hnm : ∀ x ∈ base, x.date ≠ slot.date) (he : e.date = slot.date) :
    undoSchedule (base ++ [e]) slot =
      if (e.lessons.dropLast).isEmpty then base
      else base ++ [{ e with lessons := e.lessons.dropLast }] := by
  unfold undoSchedule
  rw [updateFirstEntry_append_no_match _ hnm,
    updateFirstEntry_cons_match _ he]
  unfold popEmptied
  rw [find?_append_last (p := fun x => decide (x.date = slot.date))
    (by intro x hx; simpa using hnm x hx) (by simpa using he)]
  by_cases hemp : (e.lessons.dropLast).isEmpty
  · simp only [hemp, if_true, List.dropLast_concat]
  · simp only [hemp, if_false]
    simp

/-! ## Solver state relations and invariants -/

theorem stEq_refl (st : SolveState) : StEq st st :=
  ⟨rfl, rfl, fun _ => Or.inl rfl, fun _ _ => rfl, fun _ h => h⟩

theorem stEq_trans {st1 st2 st3 : SolveState} (h12 : StEq st1 st2)
    (h23 : StEq st2 st3) : StEq st1 st3 := by
  obtain ⟨s12, m12, w12, p12, q12⟩ := h12
  obtain ⟨s23, m23, w23, p23, q23⟩ := h23
  refine ⟨s23.trans s12, m23.trans m12, ?_, ?_, ?_⟩
  · intro w
    rcases w23 w with h | ⟨h2, h3⟩
    · rcases w12 w with h' | ⟨h1', h2'⟩
      · exact Or.inl (h.trans h')
      · exact Or.inr ⟨h1', h.trans h2'⟩
    · rcases w12 w with h' | ⟨h1', h2'⟩
      · exact Or.inr ⟨h' ▸ h2, h3⟩
      · exact Or.inr ⟨h1', h3⟩
  · intro g p
    exact (p23 g p).trans (p12 g p)
  · intro g h
    exact q23 g (q12 g h)

theorem StEq.weekSet_eq {st st' : SolveState} (h : StEq st st') (w : Int) :
    weekSet st' w = weekSet st w := by
  rcases h.2.2.1 w with h' | ⟨h1, h2⟩
  · unfold weekSet; rw [h']
  · unfold weekSet; rw [h1, h2]; rfl

/-- `ensureWeek` only adds a (JS-invisible) empty week set. -/
theorem stEq_ensureWeek (st : SolveState) (w : Int) :
    StEq st (ensureWeek st w) := by
  unfold ensureWeek
  by_cases h : (jsGet st.weeklyAssignments w).isNone
  · rw [if_pos h]
    refine ⟨rfl, rfl, ?_, fun _ _ => rfl, fun _ hh => hh⟩
    intro w'
    by_cases hw : w' = w
    · subst hw
      exact Or.inr ⟨Option.isNone_iff_eq_none.mp h, jsGet_jsSet_self _ _ _⟩
    · exact Or.inl (jsGet_jsSet_ne _ _ hw)
  · rw [if_neg h]
    exact stEq_refl st

theorem schedInv_of_stEq {seed : PeriodMap} {rule : Int}
    {st st' : SolveState} (h : StEq st st') (hi : SchedInv seed rule st) :
    SchedInv seed rule st' := by
  have hws := StEq.weekSet_eq h
  obtain ⟨hsch, hmu, _, hpa, _⟩ := h
  refine ⟨?_, ?_, ?_, ?_, ?_, ?_⟩
  · intro w g hg
    rw [hsch, hws]
    exact hi.weekly w g hg
  · intro d
    rw [hsch, hmu]
    exact hi.mu d
  · intro g p hg d hd
    rw [hsch] at hd
    rw [hpa]
    exact hi.paMax g p hg d hd
  · intro g p hg
    rw [hsch]
    exact hi.gaps g p hg
  · intro g p hg d hd s hs
    rw [hsch] at hd
    exact hi.seedGap g p hg d hd s hs
  · intro g p s hs
    obtain ⟨m, hm, hsm⟩ := hi.paSeed g p s hs
    exact ⟨m, (hpa g p).trans hm, hsm⟩

theorem structInv_of_scheduleEq {st st' : SolveState} {slots : List Slot}
    (h : st'.schedule = st.schedule) (hi : StructInv st slots) :
    StructInv st' slots :=
  ⟨h ▸ hi.sorted, h ▸ hi.nonNil, h ▸ hi.ahead, hi.slotsSorted⟩

theorem structInv_of_stEq {st st' : SolveState} {slots : List Slot}
    (h : StEq st st') (hi : StructInv st slots) : StructInv st' slots :=
  structInv_of_scheduleEq h.1 hi

/-! ## Effects of apply / undo on the period memory -/

theorem applyToPA_lookup (pa : PeriodMap) (g : String) (p : Nat) (d : Int)
    (g' : String) (p' : Nat) :
    paLookup (applyToPA pa g p d).1 g' p' =
      if g' = g ∧ p' = p then some d else paLookup pa g' p' := by
  unfold applyToPA paLookup
  by_cases hg : g' = g
  · subst hg
    rw [jsGet_jsSet_self]
    by_cases hp : p' = p
    · subst hp
      simp [jsGet_jsSet_self]
    · simp only [hp, and_false, if_false, Option.getD_some]
      rw [jsGet_jsSet_ne _ _ hp]
      by_cases h0 : (jsGet pa g').isNone
      · rw [if_pos h0, jsGet_jsSet_self, Option.isNone_iff_eq_none.mp h0]
        rfl
      · rw [if_neg h0]
  · simp only [hg, false_and, if_false]
    rw [jsGet_jsSet_ne _ _ hg]
    by_cases h0 : (jsGet pa g).isNone
    · rw [if_pos h0, jsGet_jsSet_ne _ _ hg]
    · rw [if_neg h0]

theorem applyToPA_prev (pa : PeriodMap) (g : String) (p : Nat) (d : Int) :
    (applyToPA pa g p d).2 = paLookup pa g p := by
  by_cases h0 : (jsGet pa g).isNone
  · have hn := Option.isNone_iff_eq_none.mp h0
    simp only [applyToPA, if_pos h0, jsGet_jsSet_self, Option.getD_some, paLookup]
    rw [hn]
    simp
  · simp only [applyToPA, if_neg h0, paLookup]

theorem applyToPA_isSome (pa : PeriodMap) (g : String) (p : Nat) (d : Int)
    (g' : String) (h : g' = g ∨ (jsGet pa g').isSome) :
    (jsGet (applyToPA pa g p d).1 g').isSome := by
  unfold applyToPA
  rcases h with rfl | h
  · rw [jsGet_jsSet_self]; rfl
  · apply jsGet_jsSet_isSome
    by_cases h0 : (jsGet pa g).isNone
    · rw [if_pos h0]; exact jsGet_jsSet_isSome _ _ h
    · rw [if_neg h0]; exact h

/-- Undoing the period memory through any state that reads back like the
applied state (and still has the group's outer key) restores every read. -/
theorem undoPA_restore {pa pa2 : PeriodMap} {g : String} {p : Nat} {d : Int}
    (h2 : ∀ g' p', paLookup pa2 g' p' = paLookup (applyToPA pa g p d).1 g' p')
    (hsome : (jsGet pa2 g).isSome) (g' : String) (p' : Nat) :
    paLookup (undoPA pa2 g p (some (paLookup pa g p))) g' p' =
      paLookup pa g' p' := by
  obtain ⟨inner2, hinner2⟩ := Option.isSome_iff_exists.mp hsome
  unfold undoPA
  by_cases hg : g' = g
  · subst hg
    unfold paLookup
    rw [jsGet_jsSet_self, hinner2]
    by_cases hp : p' = p
    · subst hp
      simp [jsGet_jsSet_self]
    · simp only [Option.getD_some]
      rw [jsGet_jsSet_ne _ _ hp]
      have := h2 g' p'
      rw [applyToPA_lookup] at this
      simp only [hp, and_false, if_false] at this
      unfold paLookup at this
      rw [hinner2] at this
      exact this
  · unfold paLookup
    rw [jsGet_jsSet_ne _ _ hg]
    have := h2 g' p'
    rw [applyToPA_lookup] at this
    simp only [hg, false_and, if_false] at this
    unfold paLookup at this
    exact this

theorem undoPA_isSome {pa2 : PeriodMap} {g g' : String} {p : Nat}
    {prevJS : Option (Option Int)} (h : (jsGet pa2 g').isSome) :
    (jsGet (undoPA pa2 g p prevJS) g').isSome := by
  unfold undoPA
  cases prevJS with
  | some prev => exact jsGet_jsSet_isSome _ _ h
  | none => exact jsGet_jsSet_isSome _ _ h

/-! ## Effects of apply on the schedule projections -/

theorem applyToSchedule_effects (sch : List ScheduleEntry) (slot : Slot)
    (g : String)
    (hs : sch.Pairwise (fun e1 e2 => e1.date < e2.date))
    (hn : ∀ e ∈ sch, e.lessons ≠ [])
    (hb : ∀ e ∈ sch, e.date ≤ slot.date) :
    places (applyToSchedule sch slot g) =
      places sch ++ [(slot.date, slot.period)] ∧
    weekGroupPairs (applyToSchedule sch slot g) =
      weekGroupPairs sch ++ [(getWeekIdentifier slot.date, g)] ∧
    dateGroupPairs (applyToSchedule sch slot g) =
      dateGroupPairs sch ++ [(slot.date, g)] ∧
    (∀ g' p', assignmentDates (applyToSchedule sch slot g) g' p' =
      assignmentDates sch g' p' ++
        (if g = g' ∧ slot.period = p' then [slot.date] else [])) ∧
    (applyToSchedule sch slot g).Pairwise (fun e1 e2 => e1.date < e2.date) ∧
    (∀ e ∈ applyToSchedule sch slot g, e.lessons ≠ []) ∧
    (∀ e ∈ applyToSchedule sch slot g,
      e.date ∈ sch.map ScheduleEntry.date ∨ e.date = slot.date) ∧
    (∀ e ∈ applyToSchedule sch slot g, ∀ l ∈ e.lessons,
      (∃ e0 ∈ sch, l ∈ e0.lessons) ∨ l = ⟨slot.period, g⟩) := by
  rcases applyToSchedule_cases sch slot g hs hb with
    ⟨pre, e, hpre, hdate, hlt, heq⟩ | ⟨hnm, heq⟩
  · subst hpre
    refine ⟨?_, ?_, ?_, ?_, ?_, ?_, ?_, ?_⟩
    · simp [heq, places, List.flatMap_append, hdate]
    · simp [heq, weekGroupPairs, List.flatMap_append, hdate]
    · simp [heq, dateGroupPairs, List.flatMap_append, hdate]
    · intro g' p'
      by_cases hc : g = g' ∧ slot.period = p'
      · obtain ⟨rfl, rfl⟩ := hc
        simp [heq, assignmentDates, List.flatMap_append,
          List.filterMap_append, hdate]
      · simp only [heq, assignmentDates, List.flatMap_append]
        have : (List.filterMap (fun l =>
            if l.group = g' ∧ l.period = p' then some slot.date else none)
            [(⟨slot.period, g⟩ : Lesson)]) = [] := by
          simp only [List.filterMap_cons, List.filterMap_nil]
          rw [if_neg (by
            intro ⟨h1, h2⟩
            exact hc ⟨h1, h2⟩)]
        simp [this, List.filterMap_append, hdate, hc]
    · rw [heq, List.pairwise_append]
      rw [List.pairwise_append] at hs
      refine ⟨hs.1, by simp, ?_⟩
      intro a ha b hb'
      simp only [List.mem_singleton] at hb'
      subst hb'
      have := hs.2.2 a ha e (List.mem_singleton_self e)
      simpa using this
    · intro e' he'
      rw [heq, List.mem_append] at he'
      rcases he' with h | h
      · exact hn e' (List.mem_append_left _ h)
      · simp only [List.mem_singleton] at h
        subst h
        simp
    · intro e' he'
      rw [heq, List.mem_append] at he'
      rcases he' with h | h
      · exact Or.inl (List.mem_map_of_mem _ (List.mem_append_left _ h))
      · simp only [List.mem_singleton] at h
        subst h
        exact Or.inr hdate
    · intro e' he' l hl
      rw [heq, List.mem_append] at he'
      rcases he' with h | h
      · exact Or.inl ⟨e', List.mem_append_left _ h, hl⟩
      · simp only [List.mem_singleton] at h
        subst h
        simp only [List.mem_append, List.mem_singleton] at hl
        rcases hl with h | h
        · exact Or.inl ⟨e, List.mem_append_right _ (List.mem_singleton_self e), h⟩
        · exact Or.inr h
  · refine ⟨?_, ?_, ?_, ?_, ?_, ?_, ?_, ?_⟩
    · simp [heq, places, List.flatMap_append]
    · simp [heq, weekGroupPairs, List.flatMap_append]
    · simp [heq, dateGroupPairs, List.flatMap_append]
    · intro g' p'
      by_cases hc : g = g' ∧ slot.period = p'
      · obtain ⟨rfl, rfl⟩ := hc
        simp [heq, assignmentDates, List.flatMap_append, List.filterMap_append]
      · simp only [heq, assignmentDates, List.flatMap_append]
        have : (List.filterMap (fun l =>
            if l.group = g' ∧ l.period = p' then some slot.date else none)
            [(⟨slot.period, g⟩ : Lesson)]) = [] := by
          simp only [List.filterMap_cons, List.filterMap_nil]
          rw [if_neg (by
            intro ⟨h1, h2⟩
            exact hc ⟨h1, h2⟩)]
        simp [this, hc]
    · rw [heq, List.pairwise_append]
      refine ⟨hs, by simp, ?_⟩
      intro a ha b hb'
      simp only [List.mem_singleton] at hb'
      subst hb'
      exact lt_of_le_of_ne (hb a ha) (hnm a ha)
    · intro e' he'
      rw [heq, List.mem_append] at he'
      rcases he' with h | h
      · exact hn e' h
      · simp only [List.mem_singleton] at h
        subst h
        simp
    · intro e' he'
      rw [heq, List.mem_append] at he'
      rcases he' with h | h
      · exact Or.inl (List.mem_map_of_mem _ h)
      · simp only [List.mem_singleton] at h
        subst h
        exact Or.inr rfl
    · intro e' he' l hl
      rw [heq, List.mem_append] at he'
      rcases he' with h | h
      · exact Or.inl ⟨e', h, hl⟩
      · simp only [List.mem_singleton] at h
        subst h
        simp only [List.mem_singleton] at hl
        exact Or.inr hl

/-! ## Small helpers for the invariant-step proofs -/

theorem count_concat {α : Type} [DecidableEq α] [BEq α] [LawfulBEq α]
    (l : List α) (x a : α) :
    (l ++ [x]).count a = l.count a + (if x = a then 1 else 0) := by
  simp [List.count_append, List.count_cons, beq_iff_eq]

theorem mem_setAdd {α : Type} [DecidableEq α] {l : List α} {x y : α} :
    y ∈ setAdd l x ↔ y ∈ l ∨ y = x := by
  by_cases h : x ∈ l
  · simp only [setAdd, if_pos h]
    constructor
    · exact Or.inl
    · rintro (hy | rfl)
      · exact hy
      · exact h
  · simp [setAdd, if_neg h, List.mem_append]

theorem valid_MU_elim {st : SolveState} {slot : Slot} {rule : Int}
    (hv : isGroupValidForSlot st "MU" slot rule = true) :
    slot.date ∉ st.muDays := by
  unfold isGroupValidForSlot at hv
  rw [if_pos rfl] at hv
  simpa using hv

theorem valid_nonMU_week {st : SolveState} {slot : Slot} {rule : Int}
    {g : String} (hg : g ≠ "MU")
    (hv : isGroupValidForSlot st g slot rule = true) :
    g ∉ weekSet st (getWeekIdentifier slot.date) := by
  unfold isGroupValidForSlot at hv
  rw [if_neg hg] at hv
  by_cases hcont : ((jsGet st.weeklyAssignments
      (getWeekIdentifier slot.date)).getD []).contains g
  · rw [if_pos hcont] at hv
    cases hv
  · rw [if_neg hcont] at hv
    unfold weekSet
    simpa using hcont

theorem valid_nonMU_rule {st : SolveState} {slot : Slot} {rule : Int}
    {g : String} (hg : g ≠ "MU")
    (hv : isGroupValidForSlot st g slot rule = true) {m : Int}
    (hm : paLookup st.periodAssignments g slot.period = some m) :
    rule ≤ slot.date - m := by
  unfold isGroupValidForSlot at hv
  rw [if_neg hg] at hv
  by_cases hcont : ((jsGet st.weeklyAssignments
      (getWeekIdentifier slot.date)).getD []).contains g
  · rw [if_pos hcont] at hv
    cases hv
  · rw [if_neg hcont, hm] at hv
    exact of_decide_eq_true hv

theorem applyAssign_schedule (st : SolveState) (slot : Slot) (g : String) :
    (applyAssign st slot g).1.schedule = applyToSchedule st.schedule slot g := by
  unfold applyAssign
  by_cases h : g = "MU" <;> simp [h]

theorem applyAssign_components_MU (st : SolveState) (slot : Slot) :
    (applyAssign st slot "MU").1.weeklyAssignments = st.weeklyAssignments ∧
    (applyAssign st slot "MU").1.periodAssignments = st.periodAssignments ∧
    (applyAssign st slot "MU").1.muDays = setAdd st.muDays slot.date ∧
    (applyAssign st slot "MU").2 = ⟨false, none⟩ := by
  unfold applyAssign
  simp

theorem applyAssign_components_nonMU (st : SolveState) (slot : Slot)
    (g : String) (hg : g ≠ "MU")
    (hcont : ((jsGet st.weeklyAssignments
      (getWeekIdentifier slot.date)).getD []).contains g = false) :
    (applyAssign st slot g).1.weeklyAssignments =
      jsSet st.weeklyAssignments (getWeekIdentifier slot.date)
        (((jsGet st.weeklyAssignments (getWeekIdentifier slot.date)).getD [])
          ++ [g]) ∧
    (applyAssign st slot g).1.periodAssignments =
      (applyToPA st.periodAssignments g slot.period slot.date).1 ∧
    (applyAssign st slot g).1.muDays = st.muDays ∧
    (applyAssign st slot g).2 =
      ⟨true, some (paLookup st.periodAssignments g slot.period)⟩ := by
  have hmem : g ∉ (jsGet st.weeklyAssignments
      (getWeekIdentifier slot.date)).getD [] := by
    simpa using hcont
  unfold applyAssign
  simp [hg, hcont, hmem, applyToPA_prev]

/-- A valid non-MU group is not yet recorded in the slot's week set
(Boolean form). -/
theorem valid_nonMU_contains {st : SolveState} {slot : Slot} {rule : Int}
    {g : String} (hg : g ≠ "MU")
    (hv : isGroupValidForSlot st g slot rule = true) :
    ((jsGet st.weeklyAssignments
      (getWeekIdentifier slot.date)).getD []).contains g = false := by
  have hwknotin := valid_nonMU_week hg hv
  cases hcc : ((jsGet st.weeklyAssignments
      (getWeekIdentifier slot.date)).getD []).contains g
  · rfl
  · exact absurd (by simpa [weekSet] using hcc) hwknotin

/-- Applying a valid candidate: structural facts, projection effects, and
preservation of the scheduling invariant. -/
theorem applyAssign_step (st : SolveState) (slot : Slot) (rest : List Slot)
    (g : String) (rule : Int)
    (hv : isGroupValidForSlot st g slot rule = true)
    (hsi : StructInv st (slot :: rest)) :
    StructInv (applyAssign st slot g).1 rest ∧
    places (applyAssign st slot g).1.schedule =
      places st.schedule ++ [(slot.date, slot.period)] ∧
    (∀ e ∈ (applyAssign st slot g).1.schedule,
      e.date ∈ st.schedule.map ScheduleEntry.date ∨ e.date = slot.date) ∧
    (∀ G : List String, GroupsOk G st.schedule → (g ∈ G ∨ g = "MU") →
      GroupsOk G (applyAssign st slot g).1.schedule) ∧
    (∀ seed, 0 ≤ rule → SchedInv seed rule st →
      SchedInv seed rule (applyAssign st slot g).1) := by
  have hb : ∀ e ∈ st.schedule, e.date ≤ slot.date :=
    fun e he => hsi.ahead e he slot (List.mem_cons_self _ _)
  obtain ⟨hpl, hwk, hdg, haD, hpw, hnn, hdates, hles⟩ :=
    applyToSchedule_effects st.schedule slot g hsi.sorted hsi.nonNil hb
  have hsch := applyAssign_schedule st slot g
  have hslotrest : ∀ s ∈ rest, slot.date ≤ s.date :=
    (List.pairwise_cons.mp hsi.slotsSorted).1
  refine ⟨?_, ?_, ?_, ?_, ?_⟩
  · refine ⟨?_, ?_, ?_, (List.pairwise_cons.mp hsi.slotsSorted).2⟩
    · rw [hsch]; exact hpw
    · rw [hsch]; exact hnn
    · intro e he s hsrest
      rw [hsch] at he
      rcases hdates e he with h | h
      · obtain ⟨e0, he0, hde⟩ := List.mem_map.mp h
        rw [← hde]
        exact hsi.ahead e0 he0 s (List.mem_cons_of_mem _ hsrest)
      · rw [h]
        exact hslotrest s hsrest
  · rw [hsch]; exact hpl
  · intro e he
    rw [hsch] at he
    exact hdates e he
  · intro G hok hgG e he l hl
    rw [hsch] at he
    rcases hles e he l hl with ⟨e0, he0, hl0⟩ | rfl
    · exact hok e0 he0 l hl0
    · simpa using hgG
  · intro seed hrule0 hinv
    by_cases hMU : g = "MU"
    · subst hMU
      obtain ⟨hwkc, hpac, hmuc, _⟩ := applyAssign_components_MU st slot
      have hnotin := valid_MU_elim hv
      have hws0 : ∀ w, weekSet (applyAssign st slot "MU").1 w = weekSet st w := by
        intro w
        unfold weekSet
        rw [hwkc]
      refine ⟨?_, ?_, ?_, ?_, ?_, ?_⟩
      · intro w g' hg'
        have hne : ((getWeekIdentifier slot.date, "MU") : Int × String) ≠
            (w, g') := by
          intro hh
          rw [Prod.mk.injEq] at hh
          exact hg' hh.2.symm
        rw [hsch, hwk, count_concat, hws0, if_neg hne, add_zero]
        exact hinv.weekly w g' hg'
      · intro d
        rw [hsch, hdg, count_concat, hmuc]
        by_cases hd : d = slot.date
        · subst hd
          have hold := hinv.mu slot.date
          rw [if_neg hnotin] at hold
          have hmm : slot.date ∈ setAdd st.muDays slot.date :=
            mem_setAdd.mpr (Or.inr rfl)
          rw [if_pos rfl, Nat.le_zero.mp hold, if_pos hmm]
        · have hne : ((slot.date, "MU") : Int × String) ≠ (d, "MU") := by
            intro hh
            rw [Prod.mk.injEq] at hh
            exact hd hh.1.symm
          rw [if_neg hne, add_zero]
          have hmem : d ∈ setAdd st.muDays slot.date ↔ d ∈ st.muDays := by
            simp [mem_setAdd, hd]
          rw [if_congr hmem rfl rfl]
          exact hinv.mu d
      · intro g' p' hg' d hd
        rw [hsch, haD, if_neg (fun hh => hg' hh.1.symm), List.append_nil] at hd
        rw [hpac]
        exact hinv.paMax g' p' hg' d hd
      · intro g' p' hg'
        rw [hsch, haD, if_neg (fun hh => hg' hh.1.symm), List.append_nil]
        exact hinv.gaps g' p' hg'
      · intro g' p' hg' d hd s hseed
        rw [hsch, haD, if_neg (fun hh => hg' hh.1.symm), List.append_nil] at hd
        exact hinv.seedGap g' p' hg' d hd s hseed
      · intro g' p' s hseed
        rw [hpac]
        exact hinv.paSeed g' p' s hseed
    · have hcont := valid_nonMU_contains hMU hv
      obtain ⟨hwkc, hpac, hmuc, _⟩ :=
        applyAssign_components_nonMU st slot g hMU hcont
      have hws1 : ∀ w, weekSet (applyAssign st slot g).1 w =
          if w = getWeekIdentifier slot.date then
            ((jsGet st.weeklyAssignments
              (getWeekIdentifier slot.date)).getD []) ++ [g]
          else weekSet st w := by
        intro w
        unfold weekSet
        rw [hwkc]
        by_cases hw : w = getWeekIdentifier slot.date
        · subst hw
          rw [jsGet_jsSet_self, if_pos rfl]
          rfl
        · rw [jsGet_jsSet_ne _ _ hw, if_neg hw]
      refine ⟨?_, ?_, ?_, ?_, ?_, ?_⟩
      · intro w g' hg'
        rw [hsch, hwk, count_concat, hws1]
        by_cases hc : ((getWeekIdentifier slot.date, g) : Int × String) = (w, g')
        · rw [Prod.mk.injEq] at hc
          obtain ⟨h1, h2⟩ := hc
          rw [← h1, ← h2, if_pos rfl, if_pos rfl]
          have hold := hinv.weekly (getWeekIdentifier slot.date) g hMU
          rw [if_neg (valid_nonMU_week hMU hv)] at hold
          have hmm : g ∈ ((jsGet st.weeklyAssignments
              (getWeekIdentifier slot.date)).getD []) ++ [g] := by simp
          rw [Nat.le_zero.mp hold, if_pos hmm]
        · rw [if_neg hc, add_zero]
          by_cases hw : w = getWeekIdentifier slot.date
          · subst hw
            have hgg : g' ≠ g := by
              rintro rfl
              exact hc rfl
            rw [if_pos rfl]
            have hmem : g' ∈ ((jsGet st.weeklyAssignments
                (getWeekIdentifier slot.date)).getD []) ++ [g] ↔
                g' ∈ weekSet st (getWeekIdentifier slot.date) := by
              simp [weekSet, hgg]
            rw [if_congr hmem rfl rfl]
            exact hinv.weekly (getWeekIdentifier slot.date) g' hg'
          · rw [if_neg hw]
            exact hinv.weekly w g' hg'
      · intro d
        have hne : ((slot.date, g) : Int × String) ≠ (d, "MU") := by
          intro hh
          rw [Prod.mk.injEq] at hh
          exact hMU hh.2
        rw [hsch, hdg, count_concat, hmuc, if_neg hne, add_zero]
        exact hinv.mu d
      · intro g' p' hg' d hd
        rw [hsch, haD] at hd
        rw [hpac, applyToPA_lookup]
        by_cases hc : g = g' ∧ slot.period = p'
        · obtain ⟨rfl, rfl⟩ := hc
          rw [if_pos ⟨rfl, rfl⟩]
          rw [if_pos ⟨rfl, rfl⟩, List.mem_append] at hd
          refine ⟨slot.date, rfl, ?_⟩
          rcases hd with hold | hnew
          · obtain ⟨m, hm, hdm⟩ := hinv.paMax g slot.period hg' d hold
            have := valid_nonMU_rule hMU hv hm
            omega
          · simp only [List.mem_singleton] at hnew
            omega
        · have hc' : ¬(g' = g ∧ p' = slot.period) := by
            rintro ⟨rfl, rfl⟩
            exact hc ⟨rfl, rfl⟩
          rw [if_neg hc']
          rw [if_neg hc, List.append_nil] at hd
          exact hinv.paMax g' p' hg' d hd
      · intro g' p' hg'
        rw [hsch, haD]
        by_cases hc : g = g' ∧ slot.period = p'
        · obtain ⟨rfl, rfl⟩ := hc
          rw [if_pos ⟨rfl, rfl⟩, List.pairwise_append]
          refine ⟨hinv.gaps g slot.period hg', by simp, ?_⟩
          intro d1 hd1 d2 hd2
          simp only [List.mem_singleton] at hd2
          subst hd2
          obtain ⟨m, hm, hdm⟩ := hinv.paMax g slot.period hg' d1 hd1
          have := valid_nonMU_rule hMU hv hm
          omega
        · rw [if_neg hc, List.append_nil]
          exact hinv.gaps g' p' hg'
      · intro g' p' hg' d hd s hseed
        rw [hsch, haD] at hd
        by_cases hc : g = g' ∧ slot.period = p'
        · obtain ⟨rfl, rfl⟩ := hc
          rw [if_pos ⟨rfl, rfl⟩, List.mem_append] at hd
          rcases hd with hold | hnew
          · exact hinv.seedGap g slot.period hg' d hold s hseed
          · simp only [List.mem_singleton] at hnew
            subst hnew
            obtain ⟨m0, hm0, hsm0⟩ := hinv.paSeed g slot.period s hseed
            have := valid_nonMU_rule hMU hv hm0
            omega
        · rw [if_neg hc, List.append_nil] at hd
          exact hinv.seedGap g' p' hg' d hd s hseed
      · intro g' p' s hseed
        rw [hpac, applyToPA_lookup]
        by_cases hc : g' = g ∧ p' = slot.period
        · obtain ⟨h1, h2⟩ := hc
          rw [if_pos ⟨h1, h2⟩]
          obtain ⟨m0, hm0, hsm0⟩ := hinv.paSeed g' p' s hseed
          rw [h1, h2] at hm0
          have := valid_nonMU_rule hMU hv hm0
          exact ⟨slot.date, rfl, by omega⟩
        · rw [if_neg hc]
          exact hinv.paSeed g' p' s hseed

/-! ## Exact undo of the schedule and observational undo of the state -/

theorem undoSchedule_applyToSchedule (sch : List ScheduleEntry) (slot : Slot)
    (g : String)
    (hs : sch.Pairwise (fun e1 e2 => e1.date < e2.date))
    (hn : ∀ e ∈ sch, e.lessons ≠ [])
    (hb : ∀ e ∈ sch, e.date ≤ slot.date) :
    undoSchedule (applyToSchedule sch slot g) slot = sch := by
  rcases applyToSchedule_cases sch slot g hs hb with
    ⟨pre, e, hpre, hdate, hlt, heq⟩ | ⟨hnm, heq⟩
  · have hne : e.lessons ≠ [] := hn e (by
      rw [hpre]
      exact List.mem_append_right _ (List.mem_singleton_self _))
    rw [heq, undoSchedule_append_last (fun x hx => ne_of_lt (hlt x hx))
      (show ({ e with lessons :=
        e.lessons ++ [⟨slot.period, g⟩] } : ScheduleEntry).date = slot.date
        from hdate)]
    simp only [List.dropLast_concat]
    have hemp : (e.lessons).isEmpty = false := by
      simpa [List.isEmpty_iff] using hne
    rw [hemp, if_neg (by simp), hpre]
  · rw [heq, undoSchedule_append_last hnm rfl]
    simp

/-- Undoing a valid trial assignment through any state that is
observationally equal to the applied state restores the original state
observationally. -/
theorem undo_applyAssign {st st2 : SolveState} {slot : Slot}
    {rest : List Slot} {g : String} {rule : Int}
    (hv : isGroupValidForSlot st g slot rule = true)
    (hsi : StructInv st (slot :: rest))
    (h2 : StEq (applyAssign st slot g).1 st2) :
    StEq st (undoAssign st2 slot g (applyAssign st slot g).2) := by
  have hb : ∀ e ∈ st.schedule, e.date ≤ slot.date :=
    fun e he => hsi.ahead e he slot (List.mem_cons_self _ _)
  have hsch := applyAssign_schedule st slot g
  obtain ⟨h2s, h2m, h2w, h2p, h2q⟩ := h2
  have hrest : undoSchedule st2.schedule slot = st.schedule := by
    rw [h2s, hsch]
    exact undoSchedule_applyToSchedule st.schedule slot g hsi.sorted
      hsi.nonNil hb
  by_cases hMU : g = "MU"
  · subst hMU
    obtain ⟨hwkc, hpac, hmuc, hinfo⟩ := applyAssign_components_MU st slot
    have hundo : undoAssign st2 slot "MU" (applyAssign st slot "MU").2 =
        { st2 with
            schedule := undoSchedule st2.schedule slot,
            muDays := eraseFirst st2.muDays slot.date } := by
      rw [hinfo]
      unfold undoAssign
      simp
    rw [hundo]
    have hnotin := valid_MU_elim hv
    refine ⟨hrest, ?_, ?_, ?_, ?_⟩
    · rw [h2m, hmuc]
      unfold setAdd
      rw [if_neg hnotin]
      exact eraseFirst_append_not_mem hnotin
    · intro w
      rcases h2w w with h | ⟨hnone, hsome⟩
      · rw [h, hwkc]
        exact Or.inl rfl
      · rw [hwkc] at hnone
        exact Or.inr ⟨hnone, hsome⟩
    · intro g' p'
      rw [h2p g' p', hpac]
    · intro g' hg'
      apply h2q
      rw [hpac]
      exact hg'
  · have hcont := valid_nonMU_contains hMU hv
    obtain ⟨hwkc, hpac, hmuc, hinfo⟩ :=
      applyAssign_components_nonMU st slot g hMU hcont
    have hundo : undoAssign st2 slot g (applyAssign st slot g).2 =
        { st2 with
            schedule := undoSchedule st2.schedule slot,
            weeklyAssignments := jsSet st2.weeklyAssignments
              (getWeekIdentifier slot.date)
              (eraseFirst ((jsGet st2.weeklyAssignments
                (getWeekIdentifier slot.date)).getD []) g),
            periodAssignments := undoPA st2.periodAssignments g slot.period
              (some (paLookup st.periodAssignments g slot.period)) } := by
      rw [hinfo]
      unfold undoAssign
      simp [hMU]
    rw [hundo]
    have hgnotin : g ∉ (jsGet st.weeklyAssignments
        (getWeekIdentifier slot.date)).getD [] := by
      simpa using hcont
    have hst2wk : jsGet st2.weeklyAssignments (getWeekIdentifier slot.date) =
        some (((jsGet st.weeklyAssignments
          (getWeekIdentifier slot.date)).getD []) ++ [g]) := by
      rcases h2w (getWeekIdentifier slot.date) with h | ⟨hnone, _⟩
      · rw [h, hwkc, jsGet_jsSet_self]
      · rw [hwkc, jsGet_jsSet_self] at hnone
        cases hnone
    have h2p' : ∀ g' p', paLookup st2.periodAssignments g' p' =
        paLookup (applyToPA st.periodAssignments g slot.period slot.date).1
          g' p' := by
      intro g' p'
      rw [h2p g' p', hpac]
    have hsome2 : (jsGet st2.periodAssignments g).isSome := by
      apply h2q
      rw [hpac]
      exact applyToPA_isSome _ _ _ _ _ (Or.inl rfl)
    refine ⟨hrest, ?_, ?_, ?_, ?_⟩
    · rw [h2m, hmuc]
    · intro w
      by_cases hw : w = getWeekIdentifier slot.date
      · subst hw
        rw [jsGet_jsSet_self, hst2wk]
        simp only [Option.getD_some]
        rw [eraseFirst_append_not_mem hgnotin]
        rcases hj : jsGet st.weeklyAssignments (getWeekIdentifier slot.date) with
          _ | ws0
        · exact Or.inr ⟨rfl, rfl⟩
        · exact Or.inl rfl
      · rw [jsGet_jsSet_ne _ _ hw]
        rcases h2w w with h | ⟨hnone, hsome⟩
        · rw [h, hwkc, jsGet_jsSet_ne _ _ hw]
          exact Or.inl rfl
        · rw [hwkc, jsGet_jsSet_ne _ _ hw] at hnone
          exact Or.inr ⟨hnone, hsome⟩
    · intro g' p'
      exact undoPA_restore h2p' hsome2 g' p'
    · intro g' hg'
      show (jsGet (undoPA st2.periodAssignments g slot.period
        (some (paLookup st.periodAssignments g slot.period))) g').isSome = true
      apply undoPA_isSome
      apply h2q
      rw [hpac]
      exact applyToPA_isSome _ _ _ _ _ (Or.inr hg')

/-! ## The solver's soundness: restoration on failure, invariants on success -/

theorem conc_stEq_left {G : List String} {rule : Int} {slots : List Slot}
    {st st3 st' : SolveState} (h : StEq st st3)
    (hc : Conc G rule slots st3 st') : Conc G rule slots st st' := by
  refine ⟨?_, ?_, ?_, ?_⟩
  · intro pr
    have h1 := hc.1 pr
    rw [h.1] at h1
    exact h1
  · intro hok
    apply hc.2.1
    rw [h.1]
    exact hok
  · intro e he
    have := hc.2.2.1 e he
    rw [h.1] at this
    exact this
  · intro seed h0 hi
    exact hc.2.2.2 seed h0 (schedInv_of_stEq h hi)

theorem conc_apply_step {G : List String} {rule : Int} {slot : Slot}
    {rest : List Slot} {st st' : SolveState} {g : String}
    (hv : isGroupValidForSlot st g slot rule = true)
    (hsi : StructInv st (slot :: rest))
    (hgG : g ∈ G ∨ g = "MU")
    (hc : Conc G rule rest (applyAssign st slot g).1 st') :
    Conc G rule (slot :: rest) st st' := by
  obtain ⟨hstep1, hstep2, hstep3, hstep4, hstep5⟩ :=
    applyAssign_step st slot rest g rule hv hsi
  refine ⟨?_, ?_, ?_, ?_⟩
  · intro pr
    have h1 := hc.1 pr
    rw [hstep2, count_concat] at h1
    rw [h1]
    simp only [slotPlaces, List.map_cons, List.count_cons, beq_iff_eq]
    ring
  · intro hok
    exact hc.2.1 (hstep4 G hok hgG)
  · intro e he
    rcases hc.2.2.1 e he with h | h
    · obtain ⟨e0, he0, hde⟩ := List.mem_map.mp h
      rcases hstep3 e0 he0 with h' | h'
      · exact Or.inl (hde ▸ h')
      · refine Or.inr ?_
        rw [List.map_cons, List.mem_cons]
        exact Or.inl (by rw [← hde, h'])
    · refine Or.inr ?_
      rw [List.map_cons, List.mem_cons]
      exact Or.inr h
  · intro seed h0 hi
    exact hc.2.2.2 seed h0 (hstep5 seed h0 hi)

theorem tryCandidates_spec (G : List String) (rule : Int) (slot : Slot)
    (rest : List Slot)
    (IH : ∀ st b st', solve G rule rest st = (b, st') → StructInv st rest →
      (b = false → StEq st st') ∧ (b = true → Conc G rule rest st st')) :
    ∀ (cands : List String) (st : SolveState) (b : Bool) (st' : SolveState),
      (∀ g ∈ cands, g ∈ G ∨ g = "MU") →
      tryCandidates (fun s => solve G rule rest s) slot rule cands st =
        (b, st') →
      StructInv st (slot :: rest) →
      (b = false → StEq st st') ∧
      (b = true → Conc G rule (slot :: rest) st st') := by
  intro cands
  induction cands with
  | nil =>
      intro st b st' _ htc hsi
      simp only [tryCandidates] at htc
      injection htc with h1 h2
      subst h1
      subst h2
      exact ⟨fun _ => stEq_refl st, fun hb => by cases hb⟩
  | cons g cands ihc =>
      intro st b st' hmem htc hsi
      simp only [tryCandidates] at htc
      by_cases hv : isGroupValidForSlot st g slot rule
      · rw [if_pos hv] at htc
        rcases hrec : solve G rule rest (applyAssign st slot g).1 with
          ⟨brec, strec⟩
        rw [hrec] at htc
        obtain ⟨hstep1, _, _, _, _⟩ :=
          applyAssign_step st slot rest g rule hv hsi
        cases brec with
        | true =>
            rw [if_pos rfl] at htc
            injection htc with h1 h2
            subst h1
            subst h2
            have hconc := (IH _ _ _ hrec hstep1).2 rfl
            refine ⟨fun hb => (nomatch hb), fun _ => ?_⟩
            exact conc_apply_step hv hsi (hmem g (List.mem_cons_self _ _)) hconc
        | false =>
            rw [if_neg (by simp)] at htc
            have hsteq := (IH _ _ _ hrec hstep1).1 rfl
            have hundo := undo_applyAssign hv hsi hsteq
            have hsi3 := structInv_of_stEq hundo hsi
            have hres := ihc _ b st'
              (fun g' hg' => hmem g' (List.mem_cons_of_mem _ hg')) htc hsi3
            refine ⟨?_, ?_⟩
            · intro hb
              exact stEq_trans hundo (hres.1 hb)
            · intro hb
              exact conc_stEq_left hundo (hres.2 hb)
      · rw [if_neg hv] at htc
        exact ihc _ b st'
          (fun g' hg' => hmem g' (List.mem_cons_of_mem _ hg')) htc hsi

/-- Main soundness theorem for `solve`: a failed run restores the state
observationally; a successful run fills exactly the given slots while
preserving the scheduling invariant. -/
theorem solve_spec (G : List String) (rule : Int) :
    ∀ (slots : List Slot) (st : SolveState) (b : Bool) (st' : SolveState),
      solve G rule slots st = (b, st') → StructInv st slots →
      (b = false → StEq st st') ∧ (b = true → Conc G rule slots st st') := by
  intro slots
  induction slots with
  | nil =>
      intro st b st' hs hsi
      simp only [solve] at hs
      injection hs with h1 h2
      subst h1
      subst h2
      refine ⟨fun hb => (nomatch hb), fun _ => ⟨?_, id, ?_, ?_⟩⟩
      · intro pr
        simp [slotPlaces]
      · intro e he
        exact Or.inl (List.mem_map_of_mem _ he)
      · intro seed _ hi
        exact hi
  | cons slot rest ih =>
      intro st b st' hs hsi
      simp only [solve] at hs
      have hse := stEq_ensureWeek st (getWeekIdentifier slot.date)
      have hsi1 := structInv_of_stEq hse hsi
      have hmem : ∀ g ∈ sortLe (candLe (ensureWeek st
          (getWeekIdentifier slot.date)).periodAssignments slot.period)
          (G ++ ["MU"]), g ∈ G ∨ g = "MU" := by
        intro g hg
        rw [mem_sortLe] at hg
        rcases List.mem_append.mp hg with h | h
        · exact Or.inl h
        · exact Or.inr (by simpa using h)
      have hres := tryCandidates_spec G rule slot rest ih _ _ b st' hmem hs hsi1
      refine ⟨?_, ?_⟩
      · intro hb
        exact stEq_trans hse (hres.1 hb)
      · intro hb
        exact conc_stEq_left hse (hres.2 hb)

/-! ## From the solver to `buildSchedule` -/

theorem structInv_seed (b : ScheduleBuilder) :
    StructInv (seedState b) (generateAllSlots b) := by
  refine ⟨?_, ?_, ?_, generateAllSlots_dateSorted b⟩
  · exact List.Pairwise.nil
  · intro e he
    cases he
  · intro e he
    cases he

theorem schedInv_seed (b : ScheduleBuilder) (rule : Int) :
    SchedInv b.initialPeriodAssignments rule (seedState b) := by
  refine ⟨?_, ?_, ?_, ?_, ?_, ?_⟩
  · intro w g _
    simp [seedState, weekGroupPairs]
  · intro d
    simp [seedState, dateGroupPairs]
  · intro g p _ d hd
    simp [seedState, assignmentDates] at hd
  · intro g p _
    simp [seedState, assignmentDates]
  · intro g p _ d hd
    simp [seedState, assignmentDates] at hd
  · intro g p s hs
    exact ⟨s, hs, le_refl s⟩

/-- Everything a successful pass guarantees about its returned schedule. -/
theorem solve_success_props (b : ScheduleBuilder) (rule : Int)
    (st' : SolveState)
    (hs : solve b.LESSON_GROUPS rule (generateAllSlots b) (seedState b) =
      (true, st'))
    (h0 : 0 ≤ rule) :
    (∀ pr : Int × Nat, (places st'.schedule).count pr =
      (slotPlaces (generateAllSlots b)).count pr) ∧
    GroupsOk b.LESSON_GROUPS st'.schedule ∧
    (∀ e ∈ st'.schedule, e.date ∈ (generateAllSlots b).map Slot.date) ∧
    SchedInv b.initialPeriodAssignments rule st' := by
  have hspec := (solve_spec b.LESSON_GROUPS rule (generateAllSlots b)
    (seedState b) true st' hs (structInv_seed b)).2 rfl
  obtain ⟨hcnt, hgrp, hdat, hinv⟩ := hspec
  refine ⟨?_, ?_, ?_, ?_⟩
  · intro pr
    have := hcnt pr
    simpa [seedState, places] using this
  · apply hgrp
    intro e he
    cases he
  · intro e he
    rcases hdat e he with h | h
    · simp [seedState] at h
    · exact h
  · exact hinv b.initialPeriodAssignments h0 (schedInv_seed b rule)

/-- `buildSchedule` returns the first pass's schedule, else the second
pass's, else the empty list. -/
theorem buildSchedule_cases (b : ScheduleBuilder) :
    (∃ st', solve b.LESSON_GROUPS PERFECT_SCHEDULE_DAY_RULE
        (generateAllSlots b) (seedState b) = (true, st') ∧
      buildSchedule b = st'.schedule) ∨
    (∃ stf st', solve b.LESSON_GROUPS PERFECT_SCHEDULE_DAY_RULE
        (generateAllSlots b) (seedState b) = (false, stf) ∧
      solve b.LESSON_GROUPS HIGH_QUALITY_DAY_RULE
        (generateAllSlots b) (seedState b) = (true, st') ∧
      buildSchedule b = st'.schedule) ∨
    (∃ stf stf', solve b.LESSON_GROUPS PERFECT_SCHEDULE_DAY_RULE
        (generateAllSlots b) (seedState b) = (false, stf) ∧
      solve b.LESSON_GROUPS HIGH_QUALITY_DAY_RULE
        (generateAllSlots b) (seedState b) = (false, stf') ∧
      buildSchedule b = []) := by
  unfold buildSchedule
  by_cases hemp : (generateAllSlots b).isEmpty
  · left
    have hnil : generateAllSlots b = [] := by
      simpa [List.isEmpty_iff] using hemp
    refine ⟨seedState b, ?_, ?_⟩
    · rw [hnil]
      rfl
    · rw [if_pos hemp]
      rfl
  · rw [if_neg hemp]
    rcases h1 : solve b.LESSON_GROUPS PERFECT_SCHEDULE_DAY_RULE
        (generateAllSlots b) (seedState b) with ⟨b1, st1⟩
    cases b1 with
    | true => exact Or.inl ⟨st1, rfl, rfl⟩
    | false =>
        rcases h2 : solve b.LESSON_GROUPS HIGH_QUALITY_DAY_RULE
            (generateAllSlots b) (seedState b) with ⟨b2, st2⟩
        cases b2 with
        | true => exact Or.inr (Or.inl ⟨st1, st2, rfl, rfl, rfl⟩)
        | false => exact Or.inr (Or.inr ⟨st1, st2, rfl, rfl, rfl⟩)

/-! ## Remaining supporting lemmas for the claims -/

theorem mem_slotsFromDays_period {c : Int} {ds : List Int} {s : Slot}
    (h : s ∈ slotsFromDays c ds) :
    s.period ∈ periodsForCycle s.dayCycle := by
  induction ds generalizing c with
  | nil => cases h
  | cons d ds ih =>
      simp only [slotsFromDays, List.mem_append, List.mem_map] at h
      rcases h with ⟨p, hp, rfl⟩ | h
      · simpa using hp
      · exact ih h

theorem count_pair_map (d : Int) (g : String) (ls : List Lesson) :
    (ls.map (fun l => (d, l.group))).count (d, g) =
      ls.countP (fun l => decide (l.group = g)) := by
  induction ls with
  | nil => rfl
  | cons a ls ih =>
      simp only [List.map_cons, List.count_cons, List.countP_cons, ih]
      by_cases h : a.group = g
      · simp [h]
      · simp [h]

theorem countP_le_dateGroupPairs {sch : List ScheduleEntry}
    {e : ScheduleEntry} (he : e ∈ sch) (g : String) :
    e.lessons.countP (fun l => decide (l.group = g)) ≤
      (dateGroupPairs sch).count (e.date, g) := by
  obtain ⟨l1, l2, rfl⟩ := List.append_of_mem he
  unfold dateGroupPairs
  rw [List.flatMap_append, List.flatMap_cons, List.count_append,
    List.count_append, count_pair_map]
  omega

theorem chain'_of_countP_le_one {α : Type} (p : α → Bool) :
    ∀ (l : List α), l.countP p ≤ 1 →
      l.Chain' (fun a b => ¬(p a = true ∧ p b = true)) := by
  intro l
  induction l with
  | nil => intro _; exact List.chain'_nil
  | cons a l ih =>
      intro h
      rw [List.countP_cons] at h
      cases l with
      | nil => simp
      | cons b l2 =>
          rw [List.chain'_cons]
          constructor
          · rintro ⟨hpa, hpb⟩
            rw [List.countP_cons, hpa, hpb] at h
            simp at h
          · exact ih (le_trans (Nat.le_add_right _ _) h)

theorem activeDayRule_of_pass1 {b : ScheduleBuilder} {st' : SolveState}
    (h : solve b.LESSON_GROUPS PERFECT_SCHEDULE_DAY_RULE (generateAllSlots b)
      (seedState b) = (true, st')) :
    activeDayRule b = PERFECT_SCHEDULE_DAY_RULE := by
  simp [activeDayRule, h]

theorem activeDayRule_of_pass1_fail {b : ScheduleBuilder} {stf : SolveState}
    (h : solve b.LESSON_GROUPS PERFECT_SCHEDULE_DAY_RULE (generateAllSlots b)
      (seedState b) = (false, stf)) :
    activeDayRule b = HIGH_QUALITY_DAY_RULE := by
  simp [activeDayRule, h]


theorem count_eq_one_of_nodup_mem {α : Type} [BEq α] [LawfulBEq α]
    {l : List α} {a : α} (hn : l.Nodup) (ha : a ∈ l) : l.count a = 1 := by
  induction l with
  | nil => cases ha
  | cons x xs ih =>
      rcases List.pairwise_cons.mp hn with ⟨hx, hxs⟩
      rcases List.mem_cons.mp ha with rfl | hmem
      · have hz : xs.count a = 0 :=
          List.count_eq_zero.mpr (fun hm => hx a hm rfl)
        simp [List.count_cons, hz]
      · have hxa : (x == a) = false := by
          have := hx a hmem
          simp [this]
        simp [List.count_cons, hxa, ih hxs hmem]

/-! ## Claim theorems -/

theorem wb_build : buildSchedule wb =
    [⟨4, 1, [⟨1, "A"⟩, ⟨4, "B"⟩, ⟨7, "C"⟩, ⟨8, "D"⟩]⟩] := by rfl

/-- C1: in every schedule returned by `buildSchedule`, any two assignments
of a group `g` to a period `p` are separated by at least the day rule of
the successful pass (28 for the strict pass, 21 when only the relaxed pass
succeeded), and every new assignment of `g` to `p` also keeps at least that
distance from `g`'s seed date for `p` taken from history. -/
theorem claim_C1 (b : ScheduleBuilder) (g : String) (p : Nat)
    (hg : g ≠ "MU") :
    (assignmentDates (buildSchedule b) g p).Pairwise
      (fun d1 d2 => activeDayRule b ≤ d2 - d1) ∧
    (∀ d ∈ assignmentDates (buildSchedule b) g p,
      ∀ s, paLookup b.initialPeriodAssignments g p = some s →
        activeDayRule b ≤ d - s) := by
  rcases buildSchedule_cases b with ⟨st', h1, hbs⟩ |
    ⟨stf, st', h1, h2, hbs⟩ | ⟨stf, stf', h1, h2, hbs⟩
  · obtain ⟨_, _, _, hinv⟩ := solve_success_props b _ st' h1 (by decide)
    rw [hbs, activeDayRule_of_pass1 h1]
    exact ⟨hinv.gaps g p hg, fun d hd s hs => hinv.seedGap g p hg d hd s hs⟩
  · obtain ⟨_, _, _, hinv⟩ := solve_success_props b _ st' h2 (by decide)
    rw [hbs, activeDayRule_of_pass1_fail h1]
    exact ⟨hinv.gaps g p hg, fun d hd s hs => hinv.seedGap g p hg d hd s hs⟩
  · rw [hbs]
    constructor
    · simp [assignmentDates]
    · intro d hd
      simp [assignmentDates] at hd

theorem claim_C1_witness :
    (assignmentDates (buildSchedule wb) "A" 1).Pairwise
      (fun d1 d2 => activeDayRule wb ≤ d2 - d1) :=
  (claim_C1 wb "A" 1 (by decide)).1

/-- C2: in every schedule returned by `buildSchedule`, each non-make-up
group is assigned at most once within any Monday-anchored calendar week. -/
theorem claim_C2 (b : ScheduleBuilder) (w : Int) (g : String)
    (hg : g ≠ "MU") :
    (weekGroupPairs (buildSchedule b)).count (w, g) ≤ 1 := by
  rcases buildSchedule_cases b with ⟨st', h1, hbs⟩ |
    ⟨stf, st', h1, h2, hbs⟩ | ⟨stf, stf', h1, h2, hbs⟩
  · obtain ⟨_, _, _, hinv⟩ := solve_success_props b _ st' h1 (by decide)
    rw [hbs]
    exact le_trans (hinv.weekly w g hg) (by split <;> omega)
  · obtain ⟨_, _, _, hinv⟩ := solve_success_props b _ st' h2 (by decide)
    rw [hbs]
    exact le_trans (hinv.weekly w g hg) (by split <;> omega)
  · rw [hbs]
    simp [weekGroupPairs]

theorem claim_C2_witness :
    (weekGroupPairs (buildSchedule wb)).count (1, "A") ≤ 1 :=
  claim_C2 wb 1 "A" (by decide)

/-- C3: whenever `buildSchedule` returns a non-empty schedule, every
generated slot carries exactly one lesson, no lesson sits at a
non-generated `(date, period)`, and every lesson's group is on the roster
or is the MU sentinel. -/
theorem claim_C3 (b : ScheduleBuilder) (h : buildSchedule b ≠ []) :
    (∀ pr : Int × Nat, (places (buildSchedule b)).count pr =
      (slotPlaces (generateAllSlots b)).count pr) ∧
    (∀ s ∈ generateAllSlots b,
      (places (buildSchedule b)).count (s.date, s.period) = 1) ∧
    (∀ pr : Int × Nat, pr ∉ slotPlaces (generateAllSlots b) →
      (places (buildSchedule b)).count pr = 0) ∧
    GroupsOk b.LESSON_GROUPS (buildSchedule b) := by
  rcases buildSchedule_cases b with ⟨st', h1, hbs⟩ |
    ⟨stf, st', h1, h2, hbs⟩ | ⟨stf, stf', h1, h2, hbs⟩
  · obtain ⟨hcnt, hgrp, _, _⟩ := solve_success_props b _ st' h1 (by decide)
    rw [hbs]
    refine ⟨hcnt, ?_, ?_, hgrp⟩
    · intro s hs
      rw [hcnt]
      exact count_eq_one_of_nodup_mem (slotPlaces_nodup b)
        (List.mem_map_of_mem _ hs)
    · intro pr hpr
      rw [hcnt]
      exact List.count_eq_zero.mpr hpr
  · obtain ⟨hcnt, hgrp, _, _⟩ := solve_success_props b _ st' h2 (by decide)
    rw [hbs]
    refine ⟨hcnt, ?_, ?_, hgrp⟩
    · intro s hs
      rw [hcnt]
      exact count_eq_one_of_nodup_mem (slotPlaces_nodup b)
        (List.mem_map_of_mem _ hs)
    · intro pr hpr
      rw [hcnt]
      exact List.count_eq_zero.mpr hpr
  · exact absurd hbs h

theorem claim_C3_witness :
    buildSchedule wb ≠ [] ∧
    (places (buildSchedule wb)).count (4, 1) =
      (slotPlaces (generateAllSlots wb)).count (4, 1) :=
  ⟨by rw [wb_build]; simp,
   (claim_C3 wb (by rw [wb_build]; simp)).1 (4, 1)⟩

/-- C4: `buildSchedule` returns the strict (28-day) pass's schedule when
that pass succeeds; exactly when it fails, one more pass runs with the
relaxed 21-day rule from the freshly re-seeded state, and its schedule is
returned; if both passes fail the result is the empty list. -/
theorem claim_C4 (b : ScheduleBuilder) :
    (∀ st', solve b.LESSON_GROUPS PERFECT_SCHEDULE_DAY_RULE
        (generateAllSlots b) (seedState b) = (true, st') →
      buildSchedule b = st'.schedule) ∧
    (∀ stf st', solve b.LESSON_GROUPS PERFECT_SCHEDULE_DAY_RULE
        (generateAllSlots b) (seedState b) = (false, stf) →
      solve b.LESSON_GROUPS HIGH_QUALITY_DAY_RULE
        (generateAllSlots b) (seedState b) = (true, st') →
      buildSchedule b = st'.schedule) ∧
    (∀ stf stf', solve b.LESSON_GROUPS PERFECT_SCHEDULE_DAY_RULE
        (generateAllSlots b) (seedState b) = (false, stf) →
      solve b.LESSON_GROUPS HIGH_QUALITY_DAY_RULE
        (generateAllSlots b) (seedState b) = (false, stf') →
      buildSchedule b = []) := by
  rcases buildSchedule_cases b with ⟨st', h1, hbs⟩ |
    ⟨stf, st', h1, h2, hbs⟩ | ⟨stf, stf', h1, h2, hbs⟩
  · refine ⟨?_, ?_, ?_⟩
    · intro st'' h''
      rw [h1] at h''
      injection h'' with _ he
      rw [hbs, he]
    · intro stf st'' hf _
      rw [h1] at hf
      injection hf with hb _
      cases hb
    · intro stf stf' hf _
      rw [h1] at hf
      injection hf with hb _
      cases hb
  · refine ⟨?_, ?_, ?_⟩
    · intro st'' h''
      rw [h1] at h''
      injection h'' with hb _
      cases hb
    · intro stf0 st'' hf hs2
      rw [h2] at hs2
      injection hs2 with _ he
      rw [hbs, he]
    · intro stf0 stf0' _ hs2
      rw [h2] at hs2
      injection hs2 with hb _
      cases hb
  · refine ⟨?_, ?_, ?_⟩
    · intro st'' h''
      rw [h1] at h''
      injection h'' with hb _
      cases hb
    · intro stf0 st'' _ hs2
      rw [h2] at hs2
      injection hs2 with hb _
      cases hb
    · intro stf0 stf0' _ _
      exact hbs

theorem claim_C4_witness :
    buildSchedule (mkScheduleBuilder 0 1 [] 0 none) =
      (seedState (mkScheduleBuilder 0 1 [] 0 none)).schedule :=
  (claim_C4 (mkScheduleBuilder 0 1 [] 0 none)).1
    (seedState (mkScheduleBuilder 0 1 [] 0 none)) (by rfl)

/-- C5: the claim asserts apply-then-undo restores the state bit for bit.
At the failing input, the trial is valid, yet after undo the group's period
object has gained the key `1` holding JS `undefined` (modelled `none`):
the JS backtrack runs `periodAssignments[group][period] = previousDate`
with `previousDate === undefined` because `undefined !== null`, so the
intended `delete` branch is dead code and the key set is not restored. -/
theorem claim_C5 :
    isGroupValidForSlot c5State "A" c5Slot 28 = true ∧
    (undoAssign (applyAssign c5State c5Slot "A").1 c5Slot "A"
      (applyAssign c5State c5Slot "A").2).periodAssignments =
        [("A", [(1, none)])] ∧
    c5State.periodAssignments = [("A", [])] ∧
    undoAssign (applyAssign c5State c5Slot "A").1 c5Slot "A"
      (applyAssign c5State c5Slot "A").2 ≠ c5State := by
  decide

/-- C6: in every schedule returned by `buildSchedule`, each date carries at
most one MU lesson, and no two MU lessons are adjacent in any day entry's
ordered lesson list. -/
theorem claim_C6 (b : ScheduleBuilder) :
    (∀ d, (dateGroupPairs (buildSchedule b)).count (d, "MU") ≤ 1) ∧
    (∀ e ∈ buildSchedule b, e.lessons.Chain'
      (fun l1 l2 => ¬(l1.group = "MU" ∧ l2.group = "MU"))) := by
  have hcount : ∀ d, (dateGroupPairs (buildSchedule b)).count (d, "MU") ≤ 1 := by
    rcases buildSchedule_cases b with ⟨st', h1, hbs⟩ |
      ⟨stf, st', h1, h2, hbs⟩ | ⟨stf, stf', h1, h2, hbs⟩
    · intro d
      obtain ⟨_, _, _, hinv⟩ := solve_success_props b _ st' h1 (by decide)
      rw [hbs]
      exact le_trans (hinv.mu d) (by split <;> omega)
    · intro d
      obtain ⟨_, _, _, hinv⟩ := solve_success_props b _ st' h2 (by decide)
      rw [hbs]
      exact le_trans (hinv.mu d) (by split <;> omega)
    · intro d
      rw [hbs]
      simp [dateGroupPairs]
  refine ⟨hcount, ?_⟩
  intro e he
  have hcp : e.lessons.countP (fun l => decide (l.group = "MU")) ≤ 1 :=
    le_trans (countP_le_dateGroupPairs he "MU") (hcount e.date)
  refine (chain'_of_countP_le_one _ _ hcp).imp ?_
  intro a c hab hac
  exact hab ⟨by simp [hac.1], by simp [hac.2]⟩

theorem claim_C6_witness :
    List.Chain' (fun l1 l2 => ¬(l1.group = "MU" ∧ l2.group = "MU"))
      ([⟨1, "A"⟩, ⟨4, "B"⟩, ⟨7, "C"⟩, ⟨8, "D"⟩] : List Lesson) :=
  (claim_C6 wb).2 ⟨4, 1, [⟨1, "A"⟩, ⟨4, "B"⟩, ⟨7, "C"⟩, ⟨8, "D"⟩]⟩
    (by rw [wb_build]; exact List.mem_singleton_self _)

/-- C7: `generateAllSlots` equals its spec-side description (one slot per
period of the current parity for each retained weekday, parity advancing
only on retained days), emits slots in strictly ascending `(date, period)`
order, stays on non-excluded weekdays inside the `weeks × 7` window with
the fixed period sets (1,4,7,8 on odd parity; 1,2,3,7,8 on even parity),
and from a Saturday start the first slot falls on the following Monday. -/
theorem claim_C7 (b : ScheduleBuilder) :
    generateAllSlots b = generateAllSlotsSpec b ∧
    List.Pairwise slotLt (generateAllSlots b) ∧
    (∀ s ∈ generateAllSlots b, b.startDate ≤ s.date ∧
      s.date < b.startDate + (b.weeks * 7 : Nat) ∧
      isSchoolDay b.daysOff s.date ∧
      s.period ∈ periodsForCycle s.dayCycle) ∧
    (∀ c : Int, (c % 2 ≠ 0 → periodsForCycle c = [1, 4, 7, 8]) ∧
      (c % 2 = 0 → periodsForCycle c = [1, 2, 3, 7, 8])) ∧
    (jsGetDay b.startDate = 6 → 1 ≤ b.weeks → b.startDate + 2 ∉ b.daysOff →
      (generateAllSlots b).head?.map Slot.date = some (b.startDate + 2)) := by
  refine ⟨generateAllSlots_eq_spec b, generateAllSlots_pairwise b, ?_, ?_, ?_⟩
  · intro s hs
    obtain ⟨h1, h2, h3⟩ := generateAllSlots_mem_school b s hs
    refine ⟨h1, h2, h3, ?_⟩
    rw [generateAllSlots_eq_spec] at hs
    exact mem_slotsFromDays_period hs
  · intro c
    constructor
    · intro h
      simp [periodsForCycle, h]
    · intro h
      simp [periodsForCycle, h]
  · intro h6 hw hm
    exact generateAllSlots_saturday b h6 hw hm

theorem claim_C7_witness :
    (generateAllSlots (mkScheduleBuilder 2 1 [] 1 none)).head?.map Slot.date =
      some ((mkScheduleBuilder 2 1 [] 1 none).startDate + 2) :=
  (claim_C7 (mkScheduleBuilder 2 1 [] 1 none)).2.2.2.2
    (by decide) (by decide) (by decide)

/-- C8: every day entry of a returned schedule sits on a weekday that is
not in the excluded-dates set. -/
theorem claim_C8 (b : ScheduleBuilder) :
    ∀ e ∈ buildSchedule b, isSchoolDay b.daysOff e.date := by
  rcases buildSchedule_cases b with ⟨st', h1, hbs⟩ |
    ⟨stf, st', h1, h2, hbs⟩ | ⟨stf, stf', h1, h2, hbs⟩
  · obtain ⟨_, _, hdat, _⟩ := solve_success_props b _ st' h1 (by decide)
    rw [hbs]
    intro e he
    obtain ⟨s, hsmem, hsd⟩ := List.mem_map.mp (hdat e he)
    rw [← hsd]
    exact (generateAllSlots_mem_school b s hsmem).2.2
  · obtain ⟨_, _, hdat, _⟩ := solve_success_props b _ st' h2 (by decide)
    rw [hbs]
    intro e he
    obtain ⟨s, hsmem, hsd⟩ := List.mem_map.mp (hdat e he)
    rw [← hsd]
    exact (generateAllSlots_mem_school b s hsmem).2.2
  · rw [hbs]
    intro e he
    cases he

theorem claim_C8_witness : isSchoolDay wb.daysOff (4 : Int) :=
  claim_C8 wb ⟨4, 1, [⟨1, "A"⟩, ⟨4, "B"⟩, ⟨7, "C"⟩, ⟨8, "D"⟩]⟩
    (by rw [wb_build]; exact List.mem_singleton_self _)

/-- C9 counterexample: on a roster-size mismatch the constructor does not
fail; it proceeds, and with a roster different from the history's groups
(the default letters A–V), contradicting "fails with an explicit
RosterMismatch error condition rather than proceeding with a different
roster". -/
theorem claim_C9_counterexample :
    (mkScheduleBuilder 0 1 [] 1 (some historyX)).LESSON_GROUPS =
      defaultGroups ∧
    historyGroups historyX = ["X"] ∧
    defaultGroups ≠ ["X"] := by
  decide

/-- C9 (amended): when a non-empty history is used to infer the roster and
its distinct non-MU group count differs from 22, the constructor silently
falls back to the default 22-letter roster A–V (no error is raised). -/
theorem claim_C9 (sd dc : Int) (off : List Int) (w : Nat)
    (h : List HistoryLesson) (hne : h ≠ [])
    (hcount : (historyGroups h).length ≠ REQUIRED_UNIQUE_GROUPS) :
    (mkScheduleBuilder sd dc off w (some h)).LESSON_GROUPS = defaultGroups := by
  unfold mkScheduleBuilder
  simp [hne, hcount]

theorem claim_C9_witness :
    (mkScheduleBuilder 0 1 [] 1 (some historyX)).LESSON_GROUPS =
      defaultGroups :=
  claim_C9 0 1 [] 1 historyX (by decide) (by decide)

/-- C10: `buildSchedule` is deterministic — two independently constructed
builders over the same inputs produce schedules that are equal entry for
entry. -/
theorem claim_C10 (sd dc : Int) (off : List Int) (w : Nat)
    (h : Option (List HistoryLesson)) (b1 b2 : ScheduleBuilder)
    (h1 : b1 = mkScheduleBuilder sd dc off w h)
    (h2 : b2 = mkScheduleBuilder sd dc off w h) :
    buildSchedule b1 = buildSchedule b2 := by
  subst h1
  subst h2
  rfl

theorem claim_C10_witness :
    buildSchedule (mkScheduleBuilder 4 1 [5, 6, 7, 8] 1 none) =
      buildSchedule (mkScheduleBuilder 4 1 [5, 6, 7, 8] 1 none) :=
  claim_C10 4 1 [5, 6, 7, 8] 1 none _ _ rfl rfl
